import Mathlib

/-!
Verification of the dependabot-config-manager core: the configuration data
model (`internal/config/types.go`), the merge engine (`internal/merger`)
and the ecosystem detector (`internal/detector`), shallowly embedded in
Lean.  Go strings become `String`, Go slices become `List`, Go `int`
becomes `Int`, Go `float64` confidence weights become `Nat` values in
tenths (only compared and maxed, never added, so this is exact), Go maps
become association lists together with an explicit iteration-order
parameter where the code iterates over a map.
-/

namespace DCM

/-! ## Definitions -/

/-- `Schedule` from `internal/config/types.go`. -/
structure Schedule where
  interval : String := ""
  day : String := ""
  time : String := ""
  timezone : String := ""
deriving DecidableEq, Repr, Inhabited

/-- `GroupConfig` from `internal/config/types.go`. -/
structure GroupConfig where
  dependencyType : String := ""
  patterns : List String := []
  excludePatterns : List String := []
  updateTypes : List String := []
deriving DecidableEq, Repr, Inhabited

/-- `CommitMessage` from `internal/config/types.go` (Go fields
`Prefix`, `PrefixDevelopment`, `Include`). -/
structure CommitMessage where
  pfx : String := ""
  pfxDevelopment : String := ""
  includeOpt : String := ""
deriving DecidableEq, Repr, Inhabited

/-- `IgnoreConfig` from `internal/config/types.go`. -/
structure IgnoreConfig where
  dependencyName : String := ""
  versions : List String := []
  updateTypes : List String := []
deriving DecidableEq, Repr, Inhabited

/-- `AllowConfig` from `internal/config/types.go`. -/
structure AllowConfig where
  dependencyName : String := ""
  dependencyType : String := ""
deriving DecidableEq, Repr, Inhabited

/-- `DependabotUpdate` from `internal/config/types.go`.  The Go
`map[string]GroupConfig` is modelled as an association list. -/
structure DependabotUpdate where
  packageEcosystem : String := ""
  directory : String := ""
  schedule : Schedule := {}
  openPullRequestsLimit : Int := 0
  labels : List String := []
  reviewers : List String := []
  assignees : List String := []
  milestone : Int := 0
  groups : List (String × GroupConfig) := []
  versioningStrategy : String := ""
  commitMessage : Option CommitMessage := none
  targetBranch : String := ""
  vendor : Bool := false
  insecure : List String := []
  rebaseStrategy : String := ""
  ignore : List IgnoreConfig := []
  allow : List AllowConfig := []
  registries : List String := []
deriving DecidableEq, Repr, Inhabited

/-- `DependabotConfig` from `internal/config/types.go`. -/
structure DependabotConfig where
  version : Int := 0
  updates : List DependabotUpdate := []
deriving DecidableEq, Repr, Inhabited

/-- `(u *DependabotUpdate).Equal` from `internal/config/types.go`:
compares only ecosystem, directory, schedule interval and open-PR
limit. -/
def DependabotUpdate.Equal (u other : DependabotUpdate) : Bool :=
  u.packageEcosystem == other.packageEcosystem &&
  u.directory == other.directory &&
  u.schedule.interval == other.schedule.interval &&
  u.openPullRequestsLimit == other.openPullRequestsLimit

/-- The non-nil core of `(c *DependabotConfig).Equal`: version, number of
updates, and element-wise `DependabotUpdate.Equal`. -/
def DependabotConfig.EqualCore (c other : DependabotConfig) : Bool :=
  c.version == other.version &&
  c.updates.length == other.updates.length &&
  (c.updates.zip other.updates).all fun p => p.1.Equal p.2

/-- `(c *DependabotConfig).Equal` from `internal/config/types.go`,
including the nil-receiver/nil-argument cases (Go `*DependabotConfig`
is modelled as `Option DependabotConfig`). -/
def ConfigEqual : Option DependabotConfig → Option DependabotConfig → Bool
  | none, none => true
  | none, some _ => false
  | some _, none => false
  | some c, some other => c.EqualCore other

/-- `detector.Ecosystem` (field `Type` is called `type'` here).  The
Go `float64` confidence is stored in tenths (7 = 0.7, ..., 10 = 1.0):
every weight in the indicator catalog is an exact multiple of 0.1 and
confidences are only compared and maximized, never added, so this
integer scaling is an exact model of the float comparisons. -/
structure Ecosystem where
  name : String := ""
  type' : String := ""
  directories : List String := []
  confidence : Nat := 0
deriving DecidableEq, Repr, Inhabited

/-- `Merger` from `internal/merger`: the template mapping
(ecosystem name → template config), modelled as an association list
with the Go map's unique-key discipline left implicit. -/
structure Merger where
  templates : List (String × DependabotConfig) := []
deriving DecidableEq, Repr, Inhabited

/-- Lookup `m.templates[name]` (Go map indexing). -/
def lookupTemplate (m : Merger) (name : String) : Option DependabotConfig :=
  (m.templates.find? fun p => p.1 == name).map (·.2)

/-- `isRootOnlyEcosystem` from `internal/merger`. -/
def isRootOnlyEcosystem (ecosystem : String) : Bool :=
  ecosystem == "github-actions" || ecosystem == "docker" ||
  ecosystem == "terraform" || ecosystem == "gitsubmodule"

/-- `findUpdate` from `internal/merger`: first update whose ecosystem
matches; for root-only ecosystems any directory matches, otherwise the
directory must match exactly. -/
def findUpdate (updates : List DependabotUpdate) (ecosystem directory : String) :
    Option DependabotUpdate :=
  updates.find? fun u =>
    u.packageEcosystem == ecosystem &&
    (isRootOnlyEcosystem ecosystem || u.directory == directory)

/-- `mergeStringSlices` from `internal/merger`: `a` then `b`,
de-duplicated keeping first occurrences (the Go `seen` set always equals
the set of elements of `result`). -/
def mergeStringSlices (a b : List String) : List String :=
  (a ++ b).foldl (fun result item => if item ∈ result then result else result ++ [item]) []

/-- One `merged.Groups[name] = group` store on the association-list
model of the Go groups map. -/
def insertGroup (gs : List (String × GroupConfig)) (name : String) (g : GroupConfig) :
    List (String × GroupConfig) :=
  if gs.any fun p => p.1 == name then
    gs.map fun p => if p.1 == name then (name, g) else p
  else gs ++ [(name, g)]

/-- `(m *Merger).mergeUpdate` from `internal/merger`.  The Go code
starts from a copy of `existing` and then assigns field by field; every
assignment reads only `existing`, `template`, or its own field, so the
sequence of assignments equals this single record update. -/
def mergeUpdate (existing template : DependabotUpdate) : DependabotUpdate :=
  { existing with
    schedule := template.schedule,
    openPullRequestsLimit :=
      if template.openPullRequestsLimit > 0 then template.openPullRequestsLimit
      else existing.openPullRequestsLimit,
    labels := mergeStringSlices existing.labels template.labels,
    reviewers := mergeStringSlices existing.reviewers template.reviewers,
    assignees := mergeStringSlices existing.assignees template.assignees,
    versioningStrategy :=
      if template.versioningStrategy != "" then template.versioningStrategy
      else existing.versioningStrategy,
    groups :=
      if template.groups.length > 0 then
        template.groups.foldl (fun acc p => insertGroup acc p.1 p.2) existing.groups
      else existing.groups,
    commitMessage :=
      if existing.commitMessage == none && template.commitMessage != none then
        template.commitMessage
      else existing.commitMessage }

/-- The comparison used by `sortUpdates` (`internal/merger`), as a
non-strict total relation: ecosystem first, then directory. -/
def updateLe (u v : DependabotUpdate) : Prop :=
  if u.packageEcosystem ≠ v.packageEcosystem then
    u.packageEcosystem < v.packageEcosystem
  else u.directory ≤ v.directory

instance : DecidableRel updateLe := fun u v =>
  if h : u.packageEcosystem ≠ v.packageEcosystem then
    decidable_of_iff (u.packageEcosystem.toList < v.packageEcosystem.toList)
      (by unfold updateLe; rw [if_pos h]; exact String.lt_iff_toList_lt.symm)
  else
    decidable_of_iff (u.directory.toList ≤ v.directory.toList)
      (by unfold updateLe; rw [if_neg h]; exact String.le_iff_toList_le.symm)

instance : IsTotal DependabotUpdate updateLe where
  total u v := by
    unfold updateLe
    by_cases h : u.packageEcosystem = v.packageEcosystem
    · rw [if_neg (not_not_intro h), if_neg (not_not_intro h.symm)]
      exact le_total _ _
    · rw [if_pos h, if_pos (Ne.symm h)]
      exact lt_or_gt_of_ne h

instance : IsTrans DependabotUpdate updateLe where
  trans u v w huv hvw := by
    unfold updateLe at huv hvw ⊢
    by_cases h1 : u.packageEcosystem = v.packageEcosystem <;>
      by_cases h2 : v.packageEcosystem = w.packageEcosystem
    · rw [if_neg (not_not_intro h1)] at huv
      rw [if_neg (not_not_intro h2)] at hvw
      rw [if_neg (not_not_intro (h1.trans h2))]
      exact le_trans huv hvw
    · rw [if_pos h2] at hvw
      rw [if_pos (fun hc => h2 (h1 ▸ hc))]
      exact h1.symm ▸ hvw
    · rw [if_pos h1] at huv
      rw [if_pos (fun hc => h1 (hc.trans h2.symm))]
      exact h2 ▸ huv
    · rw [if_pos h1] at huv
      rw [if_pos h2] at hvw
      rw [if_pos (ne_of_lt (lt_trans huv hvw))]
      exact lt_trans huv hvw

/-- `sortUpdates` from `internal/merger` (`sort.Slice` by ecosystem then
directory; modelled as a deterministic comparison sort with the
corresponding non-strict relation, a valid refinement of `sort.Slice`,
whose output order is fully determined whenever no two updates share
ecosystem and directory). -/
def sortUpdates (updates : List DependabotUpdate) : List DependabotUpdate :=
  updates.insertionSort updateLe

/-- The basic fallback rule synthesized by `createFromTemplates` when a
detected ecosystem has no loaded template. -/
def fallbackUpd (eco : Ecosystem) (dir : String) : DependabotUpdate :=
  { packageEcosystem := eco.type', directory := dir,
    schedule := { interval := "weekly" }, openPullRequestsLimit := 10,
    labels := ["dependencies"] }

/-- The update list accumulated by `createFromTemplates` before
sorting: per detected ecosystem, either one copy of every template
update per directory, or a basic fallback rule per directory when no
template is loaded. -/
def createList (m : Merger) (ecosystems : List Ecosystem) : List DependabotUpdate :=
  ecosystems.flatMap fun eco =>
    match lookupTemplate m eco.name with
    | none => eco.directories.map (fallbackUpd eco)
    | some template =>
        eco.directories.flatMap fun dir =>
          template.updates.map fun tmplUpdate => { tmplUpdate with directory := dir }

/-- `(m *Merger).createFromTemplates` from `internal/merger` (the
`existing == nil` case of `Merge`). -/
def Merger.createFromTemplates (m : Merger) (ecosystems : List Ecosystem) :
    DependabotConfig :=
  { version := 2, updates := sortUpdates (createList m ecosystems) }

/-- The updates appended by `Merge` for one detected ecosystem (the body
of the `for _, eco := range ecosystems` loop in `internal/merger`,
`existing != nil` case). -/
def mergeDetectedOne (m : Merger) (existing : DependabotConfig) (eco : Ecosystem) :
    List DependabotUpdate :=
  match lookupTemplate m eco.name with
  | none => []
  | some template =>
      eco.directories.flatMap fun dir =>
        match findUpdate existing.updates eco.type' dir with
        | some existingUpdate =>
            template.updates.map fun tmplUpdate =>
              let mergedUpdate := mergeUpdate existingUpdate tmplUpdate
              if isRootOnlyEcosystem eco.type' then { mergedUpdate with directory := "/" }
              else { mergedUpdate with directory := dir }
        | none =>
            template.updates.map fun tmplUpdate => { tmplUpdate with directory := dir }

/-- All updates produced by the detected-ecosystem loop of `Merge`. -/
def mergePhase1 (m : Merger) (existing : DependabotConfig) (ecosystems : List Ecosystem) :
    List DependabotUpdate :=
  ecosystems.flatMap (mergeDetectedOne m existing)

/-- One comparison of the carry-forward loop's `found` check: does the
already-merged update `mu` cover `existingUpdate`'s identity (ecosystem
alone for root-only ecosystems, ecosystem plus directory otherwise)? -/
def coverOne (mu existingUpdate : DependabotUpdate) : Bool :=
  if isRootOnlyEcosystem existingUpdate.packageEcosystem then
    mu.packageEcosystem == existingUpdate.packageEcosystem
  else
    mu.packageEcosystem == existingUpdate.packageEcosystem &&
    mu.directory == existingUpdate.directory

/-- The `found` check of the carry-forward loop in `Merge`. -/
def coveredBy (mergedUpdates : List DependabotUpdate) (existingUpdate : DependabotUpdate) :
    Bool :=
  mergedUpdates.any fun mu => coverOne mu existingUpdate

/-- Root-only directory normalization applied to carried-forward rules. -/
def normalizeRootOnly (u : DependabotUpdate) : DependabotUpdate :=
  if isRootOnlyEcosystem u.packageEcosystem then { u with directory := "/" } else u

/-- The carry-forward loop of `Merge`: append every existing update not
covered by the updates merged so far (the accumulator grows as rules are
carried, exactly as `merged.Updates` does in the Go loop). -/
def carryForward (merged : List DependabotUpdate) (existingUpdates : List DependabotUpdate) :
    List DependabotUpdate :=
  existingUpdates.foldl
    (fun acc eu => if coveredBy acc eu then acc else acc ++ [normalizeRootOnly eu]) merged

/-- `(m *Merger).Merge` from `internal/merger`. -/
def Merger.Merge (m : Merger) (existing : Option DependabotConfig)
    (ecosystems : List Ecosystem) : DependabotConfig :=
  match existing with
  | none => m.createFromTemplates ecosystems
  | some existing =>
      { version := 2,
        updates := sortUpdates (carryForward (mergePhase1 m existing ecosystems) existing.updates) }

/-- `indicator` from `internal/detector`; the confidence weight is in
tenths (see `Ecosystem.confidence`). -/
structure Indicator where
  file : String
  confidence : Nat
deriving DecidableEq, Repr, Inhabited

/-- Shell-glob matching as performed by Go's `path/filepath.Match` for
the pattern forms the detector uses: literal characters, `?` (any one
character except the separator) and `*` (any run of non-separator
characters); the whole name must match.  Each recursive call shrinks
the pattern or the name, so fuel `pattern.length + name.length + 1`
always suffices. -/
def globMatchAux : Nat → List Char → List Char → Bool
  | 0, _, _ => false
  | fuel + 1, pat, s =>
      match pat, s with
      | [], [] => true
      | [], _ :: _ => false
      | '*' :: ps, [] => globMatchAux fuel ps []
      | '*' :: ps, c :: ss =>
          globMatchAux fuel ps (c :: ss) || (c != '/' && globMatchAux fuel ('*' :: ps) ss)
      | '?' :: ps, c :: ss => c != '/' && globMatchAux fuel ps ss
      | '?' :: _, [] => false
      | p :: ps, c :: ss => p == c && globMatchAux fuel ps ss
      | _ :: _, [] => false

/-- `filepath.Match(pattern, name)` on strings. -/
def Match (pattern name : String) : Bool :=
  globMatchAux (pattern.length + name.length + 1) pattern.toList name.toList

/-- Split a character list at every separator, like `strings.Split` on
"/" (so `"a/b"` gives `["a", "b"]` and `""` gives `[""]`). -/
def splitOnSlash : List Char → List (List Char)
  | [] => [[]]
  | c :: cs =>
      match splitOnSlash cs, c == '/' with
      | rest, true => [] :: rest
      | [], false => [[c]]
      | r :: rs, false => (c :: r) :: rs

/-- Rejoin path components with the separator. -/
def joinSlash : List (List Char) → List Char
  | [] => []
  | [x] => x
  | x :: xs => x ++ '/' :: joinSlash xs

/-- `filepath.Base` for the clean, relative, slash-separated paths of a
git tree listing: the last path component. -/
def Base (path : String) : String :=
  String.mk ((splitOnSlash path.toList).getLastD path.toList)

/-- `filepath.Dir` for the clean, relative, slash-separated paths of a
git tree listing: all but the last component, or "." at the root. -/
def Dir (path : String) : String :=
  let parts := splitOnSlash path.toList
  if parts.length ≤ 1 then "." else String.mk (joinSlash parts.dropLast)

/-- `extractDirectory` from `internal/detector`. -/
def extractDirectory (path : String) : String :=
  let dir := Dir path
  if dir == "." then "/"
  else if !((dir.toList.headD ' ') == '/') then "/" ++ dir
  else dir

/-- `matchesPattern` from `internal/detector`. -/
def matchesPattern (path pattern : String) : Bool :=
  if pattern.toList.contains '*' then
    Match pattern (Base path) || Match pattern path
  else
    Base path == pattern || path == pattern

/-- `appendUnique` from `internal/detector`. -/
def appendUnique (slice : List String) (item : String) : List String :=
  if slice.contains item then slice else slice ++ [item]

/-- The detector's literal indicator catalog (the `indicators` map in
`Detect`), as an association list in source order. -/
def indicators : List (String × List Indicator) :=
  [("npm",
    [⟨"package-lock.json", 10⟩, ⟨"yarn.lock", 10⟩, ⟨"pnpm-lock.yaml", 10⟩,
     ⟨"package.json", 8⟩]),
   ("gomod", [⟨"go.sum", 10⟩, ⟨"go.mod", 9⟩]),
   ("pip",
    [⟨"poetry.lock", 10⟩, ⟨"Pipfile.lock", 10⟩, ⟨"requirements.txt", 8⟩,
     ⟨"setup.py", 7⟩, ⟨"pyproject.toml", 9⟩]),
   ("docker",
    [⟨"Dockerfile", 9⟩, ⟨"docker-compose.yml", 8⟩,
     ⟨"docker-compose.yaml", 8⟩, ⟨"Dockerfile.*", 9⟩]),
   ("maven", [⟨"pom.xml", 9⟩]),
   ("gradle",
    [⟨"gradle.lock", 10⟩, ⟨"build.gradle", 8⟩, ⟨"build.gradle.kts", 8⟩]),
   ("bundler", [⟨"Gemfile.lock", 10⟩, ⟨"Gemfile", 8⟩]),
   ("cargo", [⟨"Cargo.lock", 10⟩, ⟨"Cargo.toml", 8⟩]),
   ("composer", [⟨"composer.lock", 10⟩, ⟨"composer.json", 8⟩]),
   ("nuget",
    [⟨"packages.config", 8⟩, ⟨"*.csproj", 7⟩, ⟨"*.fsproj", 7⟩,
     ⟨"*.vbproj", 7⟩]),
   ("github-actions",
    [⟨".github/workflows/*.yml", 9⟩, ⟨".github/workflows/*.yaml", 9⟩]),
   ("terraform", [⟨"*.tf", 8⟩, ⟨".terraform.lock.hcl", 10⟩]),
   ("elm", [⟨"elm.json", 9⟩, ⟨"elm-package.json", 8⟩]),
   ("gitsubmodule", [⟨".gitmodules", 9⟩]),
   ("pub", [⟨"pubspec.yaml", 9⟩, ⟨"pubspec.lock", 10⟩]),
   ("hex", [⟨"mix.exs", 9⟩, ⟨"mix.lock", 10⟩])]

/-- The detector's `switch ecosystem` that forces the recorded directory
to "/" for repository-wide ecosystems. -/
def rootScanDir (ecosystem dir : String) : String :=
  if ecosystem == "docker" || ecosystem == "github-actions" ||
     ecosystem == "terraform" || ecosystem == "gitsubmodule" then "/"
  else dir

/-- The per-ecosystem entry of the detector's `ecosystems` map. -/
structure EcoState where
  confidence : Nat
  directories : List String
deriving DecidableEq, Repr, Inhabited

/-- Effect of testing one indicator of `ecosystem` against one file
`path` on that ecosystem's map entry (`none` = key absent): on a match,
create the entry with the indicator's confidence, or raise the stored
confidence if strictly larger, then append the (possibly root-forced)
containing directory if new. -/
def stepIndicator (ecosystem path : String) (st : Option EcoState) (ind : Indicator) :
    Option EcoState :=
  if matchesPattern path ind.file then
    let st' : EcoState := match st with
      | none => { confidence := ind.confidence, directories := [] }
      | some s => if ind.confidence > s.confidence then { s with confidence := ind.confidence } else s
    some { st' with
           directories := appendUnique st'.directories (rootScanDir ecosystem (extractDirectory path)) }
  else st

/-- The final map entry for one ecosystem after scanning all files:
files in tree order, each ecosystem's indicators in slice order.
Distinct ecosystems' entries are independent in the Go loops, so the
interleaving over map iteration does not matter here. -/
def ecoScan (ecosystem : String) (inds : List Indicator) (files : List String) :
    Option EcoState :=
  files.foldl (fun st path => inds.foldl (stepIndicator ecosystem path) st) none

/-- One outer-loop step (index `i`) of the detector's final
sort-by-descending-confidence double loop: scan the tail left to right,
swapping the register with any element of strictly larger confidence;
returns the final register (the maximum) and the rearranged tail. -/
def selPass : Ecosystem → List Ecosystem → Ecosystem × List Ecosystem
  | cur, [] => (cur, [])
  | cur, y :: ys =>
      if y.confidence > cur.confidence then
        let p := selPass y ys
        (p.1, cur :: p.2)
      else
        let p := selPass cur ys
        (p.1, y :: p.2)

/-- Fueled recursion for the detector's sort; `selPass` preserves the
length of the tail, so fuel `l.length` always suffices. -/
def selSortAux : Nat → List Ecosystem → List Ecosystem
  | 0, _ => []
  | _, [] => []
  | n + 1, x :: xs =>
      let p := selPass x xs
      p.1 :: selSortAux n p.2

/-- The detector's in-place selection sort by descending confidence
(`for i ... for j ... if result[j].Confidence > result[i].Confidence`). -/
def selSortByConfidence (l : List Ecosystem) : List Ecosystem :=
  selSortAux l.length l

/-- `Detect` from `internal/detector`, over a flat list of blob paths.
`order` is the iteration order of the Go `ecosystems` map when the
result slice is built — an arbitrary permutation of the matched
ecosystem names, made explicit because Go randomizes map iteration. -/
def Detect (files : List String) (order : List String) : List Ecosystem :=
  selSortByConfidence <| order.filterMap fun name =>
    (ecoScan name (((indicators.find? fun p => p.1 == name).map (·.2)).getD []) files).map
      fun st =>
        ({ name := name, type' := name, directories := st.directories,
           confidence := st.confidence } : Ecosystem)

/-- The set of keys present in the detector's `ecosystems` map after
scanning `files`, listed in catalog order: every valid iteration order
of the map is a permutation of this list. -/
def presentKeys (files : List String) : List String :=
  (indicators.filter fun p => (ecoScan p.1 p.2 files).isSome).map (·.1)

/-- `HasExclusionTopic` from `internal/detector`. -/
def HasExclusionTopic (topics : List String) : Bool :=
  topics.any fun topic =>
    ["no-dependabot", "skip-dependabot", "exclude-dependabot"].contains topic

/-- The weights of all indicator matches of one ecosystem's indicator
list against a file tree, in scan order (files outer, indicators
inner), exactly the matches on which `stepIndicator` fires. -/
def matchedWeights (inds : List Indicator) (files : List String) : List Nat :=
  files.flatMap fun path =>
    (inds.filter fun ind => matchesPattern path ind.file).map (·.confidence)

/-- The confidence-only evolution of an ecosystem's map entry: absent,
or the running maximum (`stepIndicator` installs the first weight and
afterwards replaces only on strictly larger ones). -/
def maxAcc : Option Nat → List Nat → Option Nat
  | c, [] => c
  | none, w :: ws => maxAcc (some w) ws
  | some c, w :: ws => maxAcc (some (if w > c then w else c)) ws

/-- The identifying pair of an update rule. -/
def updKey (u : DependabotUpdate) : String × String :=
  (u.packageEcosystem, u.directory)

/-- The data compared by `DependabotUpdate.Equal`. -/
def quad (u : DependabotUpdate) : String × String × String × Int :=
  (u.packageEcosystem, u.directory, u.schedule.interval, u.openPullRequestsLimit)

/-- Two updates have the same identity when their ecosystems agree and
either the ecosystem is root-only (identified by ecosystem alone) or the
directories agree as well. -/
def SameIdent (u v : DependabotUpdate) : Prop :=
  u.packageEcosystem = v.packageEcosystem ∧
  (isRootOnlyEcosystem u.packageEcosystem = true ∨ u.directory = v.directory)

/-- Well-formedness of one detected ecosystem relative to the template
mapping: duplicate-free directory set, root-only ecosystems detected at
"/" only (as the detector guarantees), and a template — when one is
loaded for this ecosystem — holding at most one update rule, tagged
with the detected ecosystem type. -/
def EcoWF (m : Merger) (eco : Ecosystem) : Prop :=
  eco.directories.Nodup ∧
  (isRootOnlyEcosystem eco.type' = true → ∀ d ∈ eco.directories, d = "/") ∧
  ∀ tc, lookupTemplate m eco.name = some tc →
    tc.updates = [] ∨ ∃ t, tc.updates = [t] ∧ t.packageEcosystem = eco.type'

/-- Well-formedness of a detected-ecosystem list: pairwise distinct
ecosystem types, each entry well-formed. -/
def DetectedWF (m : Merger) (D : List Ecosystem) : Prop :=
  (D.map (·.type')).Nodup ∧ ∀ eco ∈ D, EcoWF m eco

/-- The rule produced by the detected-ecosystem loop of `Merge` for one
(ecosystem, directory) pair with a single-rule template `t`. -/
def prodUpd (exUpdates : List DependabotUpdate) (eco : Ecosystem) (d : String)
    (t : DependabotUpdate) : DependabotUpdate :=
  match findUpdate exUpdates eco.type' d with
  | some existingUpdate =>
      if isRootOnlyEcosystem eco.type' then
        { mergeUpdate existingUpdate t with directory := "/" }
      else { mergeUpdate existingUpdate t with directory := d }
  | none => { t with directory := d }

/-- The identity keys produced by the detected-ecosystem loop; for a
well-formed detected list they do not depend on the existing document. -/
def covKeys (m : Merger) (D : List Ecosystem) : List (String × String) :=
  D.flatMap fun eco =>
    match lookupTemplate m eco.name with
    | none => []
    | some tc =>
        if tc.updates = [] then [] else eco.directories.map fun d => (eco.type', d)

/-- Hypotheses for root-only normalization: root-only detected
ecosystems carry only the root directory (as the detector guarantees),
and template updates tagged root-only are only instantiated at root
directories. -/
def RootDirsOk (m : Merger) (D : List Ecosystem) : Prop :=
  ∀ eco ∈ D,
    (isRootOnlyEcosystem eco.type' = true → ∀ d ∈ eco.directories, d = "/") ∧
    ∀ tc, lookupTemplate m eco.name = some tc → ∀ t ∈ tc.updates,
      isRootOnlyEcosystem t.packageEcosystem = true → ∀ d ∈ eco.directories, d = "/"

instance : DecidableRel SameIdent := fun u v => by
  unfold SameIdent
  infer_instance

/-- A docker template document with one update rule. -/
def exTemplateDocker : DependabotConfig :=
  { version := 2,
    updates := [{ packageEcosystem := "docker", schedule := { interval := "weekly" },
                  openPullRequestsLimit := 5, labels := ["dependencies"] }] }

/-- A template mapping containing only the docker template. -/
def exMerger : Merger := { templates := [("docker", exTemplateDocker)] }

/-- A detector-shaped detected set: docker found, directory normalized
to "/". -/
def exDetected : List Ecosystem :=
  [{ name := "docker", type' := "docker", directories := ["/"], confidence := 9 }]

/-- The npm rule of the example existing document; its ecosystem is in
neither the detected set nor the template mapping. -/
def exNpmRule : DependabotUpdate :=
  { packageEcosystem := "npm", directory := "/", schedule := { interval := "daily" },
    openPullRequestsLimit := 2, labels := ["deps"], targetBranch := "develop",
    vendor := true }

/-- An example existing document: a docker rule at a non-root directory
and an npm rule. -/
def exExisting : DependabotConfig :=
  { version := 2,
    updates := [{ packageEcosystem := "docker", directory := "/compose",
                  schedule := { interval := "daily" }, openPullRequestsLimit := 3 },
                exNpmRule] }

/-- A detected docker ecosystem whose directory set was not normalized
to "/" (impossible for the real detector, but allowed by the type). -/
def exBadDocker : List Ecosystem :=
  [{ name := "docker", type' := "docker", directories := ["/app"], confidence := 9 }]

/-- A detected npm ecosystem, listed twice in `exDupDetected`. -/
def exNpmEco : Ecosystem :=
  { name := "npm", type' := "npm", directories := ["/"], confidence := 10 }

def exDupDetected : List Ecosystem := [exNpmEco, exNpmEco]

/-- Strict lexicographic order on identity keys. -/
def keyLt (a b : String × String) : Prop :=
  a.1 < b.1 ∨ (a.1 = b.1 ∧ a.2 < b.2)

/-- `keyLt` on the key components of the `Equal`-relevant data. -/
def quadKeyLt (q1 q2 : String × String × String × Int) : Prop :=
  keyLt (q1.1, q1.2.1) (q2.1, q2.2.1)

instance : IsAntisymm (String × String × String × Int) quadKeyLt :=
  ⟨fun _ _ h1 h2 => by
    rcases h1 with h1 | ⟨e1, h1⟩ <;> rcases h2 with h2 | ⟨e2, h2⟩
    · exact absurd h2 (lt_asymm h1)
    · exact absurd (e2 ▸ h1) (lt_irrefl _)
    · exact absurd (e1 ▸ h2) (lt_irrefl _)
    · exact absurd h2 (lt_asymm h1)⟩

/-! ## Theorems -/

theorem selPass_snd_length (cur : Ecosystem) (l : List Ecosystem) :
    (selPass cur l).2.length = l.length := by
  induction l generalizing cur with
  | nil => rfl
  | cons y ys ih =>
      simp only [selPass]
      split <;> simp [ih]

/-- The fold underlying `mergeStringSlices` keeps the accumulator
duplicate-free, accumulates exactly the members of both lists, and only
ever inserts elements of the scanned list at the end, in order. -/
theorem mergeStringSlices_foldl_spec :
    ∀ (l acc : List String), acc.Nodup →
      (l.foldl (fun result item => if item ∈ result then result else result ++ [item]) acc).Nodup ∧
      (∀ x, x ∈ l.foldl (fun result item => if item ∈ result then result else result ++ [item]) acc ↔
        x ∈ acc ∨ x ∈ l) ∧
      (l.foldl (fun result item => if item ∈ result then result else result ++ [item]) acc).Sublist
        (acc ++ l)
  | [], acc, h => by
      refine ⟨h, fun x => by simp, by simp⟩
  | x :: xs, acc, h => by
      by_cases hx : x ∈ acc
      · simp only [List.foldl_cons, if_pos hx]
        have ih := mergeStringSlices_foldl_spec xs acc h
        refine ⟨ih.1, fun y => ?_, ?_⟩
        · rw [ih.2.1 y]
          constructor
          · rintro (hy | hy)
            · exact Or.inl hy
            · exact Or.inr (List.mem_cons_of_mem _ hy)
          · rintro (hy | hy)
            · exact Or.inl hy
            · rcases List.mem_cons.mp hy with rfl | hy
              · exact Or.inl hx
              · exact Or.inr hy
        · exact ih.2.2.trans (List.Sublist.append_left (List.sublist_cons_self x xs) acc)
      · simp only [List.foldl_cons, if_neg hx]
        have hnd : (acc ++ [x]).Nodup := by
          simp [List.nodup_append, h, hx]
        have ih := mergeStringSlices_foldl_spec xs (acc ++ [x]) hnd
        have harr : acc ++ [x] ++ xs = acc ++ x :: xs := by simp
        refine ⟨ih.1, fun y => ?_, ?_⟩
        · rw [ih.2.1 y]
          simp [List.mem_append, List.mem_cons, or_assoc]
        · rw [← harr]
          exact ih.2.2

/-- `sortUpdates` sorts with respect to `updateLe`. -/
theorem sortUpdates_sorted (l : List DependabotUpdate) :
    (sortUpdates l).Pairwise updateLe :=
  List.sorted_insertionSort updateLe l

/-- `sortUpdates` permutes its input. -/
theorem sortUpdates_perm (l : List DependabotUpdate) : List.Perm (sortUpdates l) l :=
  List.perm_insertionSort updateLe l

/-- `updateLe` unfolded into the lexicographic order on
(ecosystem, directory). -/
theorem updateLe_iff (u v : DependabotUpdate) :
    updateLe u v ↔
      (u.packageEcosystem < v.packageEcosystem ∨
       (u.packageEcosystem = v.packageEcosystem ∧ u.directory ≤ v.directory)) := by
  unfold updateLe
  by_cases h : u.packageEcosystem = v.packageEcosystem
  · rw [if_neg (not_not_intro h)]
    constructor
    · exact fun hle => Or.inr ⟨h, hle⟩
    · rintro (hlt | ⟨-, hle⟩)
      · exact absurd (h ▸ hlt) (lt_irrefl _)
      · exact hle
  · rw [if_pos h]
    constructor
    · exact fun hlt => Or.inl hlt
    · rintro (hlt | ⟨heq, -⟩)
      · exact hlt
      · exact absurd heq h

theorem maxAcc_append (o : Option Nat) (w1 w2 : List Nat) :
    maxAcc o (w1 ++ w2) = maxAcc (maxAcc o w1) w2 := by
  induction w1 generalizing o with
  | nil => cases o <;> rfl
  | cons w ws ih =>
      cases o with
      | none => rw [List.cons_append, maxAcc, maxAcc, ih]
      | some c => rw [List.cons_append, maxAcc, maxAcc, ih]

theorem foldl_stepIndicator_confidence (eco path : String) :
    ∀ (inds : List Indicator) (st : Option EcoState),
      (inds.foldl (stepIndicator eco path) st).map (·.confidence) =
        maxAcc (st.map (·.confidence))
          ((inds.filter fun ind => matchesPattern path ind.file).map (·.confidence))
  | [], st => by cases st <;> rfl
  | ind :: rest, st => by
      by_cases hm : matchesPattern path ind.file
      · rw [List.foldl_cons, List.filter_cons, if_pos hm, List.map_cons]
        cases st with
        | none =>
            rw [show stepIndicator eco path none ind =
              some { confidence := ind.confidence,
                     directories := appendUnique [] (rootScanDir eco (extractDirectory path)) } by
                simp [stepIndicator, hm]]
            rw [foldl_stepIndicator_confidence eco path rest _]
            rfl
        | some s =>
            rw [show stepIndicator eco path (some s) ind =
              some { confidence := if ind.confidence > s.confidence then ind.confidence else s.confidence,
                     directories :=
                       appendUnique
                         (if ind.confidence > s.confidence then
                            ({ s with confidence := ind.confidence } : EcoState).directories
                          else s.directories)
                         (rootScanDir eco (extractDirectory path)) } by
                simp only [stepIndicator, if_pos hm]
                split <;> rfl]
            rw [foldl_stepIndicator_confidence eco path rest _]
            rfl
      · rw [List.foldl_cons, List.filter_cons, if_neg hm,
           show stepIndicator eco path st ind = st by simp [stepIndicator, hm]]
        exact foldl_stepIndicator_confidence eco path rest st

theorem ecoScan_confidence (eco : String) (inds : List Indicator) :
    ∀ (files : List String) (st : Option EcoState),
      ((files.foldl (fun st path => inds.foldl (stepIndicator eco path) st) st).map (·.confidence)) =
        maxAcc (st.map (·.confidence)) (matchedWeights inds files)
  | [], st => by cases st <;> rfl
  | path :: rest, st => by
      have ih := ecoScan_confidence eco inds rest (inds.foldl (stepIndicator eco path) st)
      simp only [matchedWeights] at ih ⊢
      rw [List.foldl_cons, ih, List.flatMap_cons, maxAcc_append,
        foldl_stepIndicator_confidence eco path inds st]

theorem maxAcc_some_spec :
    ∀ (ws : List Nat) (c0 c : Nat), maxAcc (some c0) ws = some c →
      (c = c0 ∨ c ∈ ws) ∧ c0 ≤ c ∧ ∀ w ∈ ws, w ≤ c
  | [], c0, c, h => by
      cases h
      exact ⟨Or.inl rfl, le_refl _, fun w hw => absurd hw (List.not_mem_nil w)⟩
  | w :: ws, c0, c, h => by
      rw [maxAcc] at h
      have ih := maxAcc_some_spec ws _ c h
      have hc1 : c0 ≤ (if w > c0 then w else c0) ∧ w ≤ (if w > c0 then w else c0) := by
        by_cases hw : w > c0
        · exact ⟨le_of_lt (if_pos hw ▸ hw), le_of_eq (if_pos hw).symm⟩
        · exact ⟨le_of_eq (if_neg hw).symm, if_neg hw ▸ le_of_not_lt hw⟩
      refine ⟨?_, le_trans hc1.1 ih.2.1, fun v hv => ?_⟩
      · rcases ih.1 with heq | hmem
        · by_cases hw : w > c0
          · rw [if_pos hw] at heq
            exact Or.inr (heq ▸ List.mem_cons_self w ws)
          · rw [if_neg hw] at heq
            exact Or.inl heq
        · exact Or.inr (List.mem_cons_of_mem _ hmem)
      · rcases List.mem_cons.mp hv with rfl | hmem
        · exact le_trans hc1.2 ih.2.1
        · exact ih.2.2 v hmem

theorem maxAcc_none_spec (ws : List Nat) (c : Nat) (h : maxAcc none ws = some c) :
    c ∈ ws ∧ ∀ w ∈ ws, w ≤ c := by
  cases ws with
  | nil => cases h
  | cons w rest =>
      rw [maxAcc] at h
      have := maxAcc_some_spec rest w c h
      refine ⟨?_, fun v hv => ?_⟩
      · rcases this.1 with heq | hmem
        · exact heq ▸ List.mem_cons_self w rest
        · exact List.mem_cons_of_mem _ hmem
      · rcases List.mem_cons.mp hv with rfl | hmem
        · exact this.2.1
        · exact this.2.2 v hmem

theorem selPass_perm :
    ∀ (c : Ecosystem) (l : List Ecosystem),
      List.Perm (c :: l) ((selPass c l).1 :: (selPass c l).2)
  | _, [] => List.Perm.refl _
  | c, y :: ys => by
      rw [selPass]
      by_cases hgt : y.confidence > c.confidence
      · rw [if_pos hgt]
        have ih := selPass_perm y ys
        exact (List.Perm.cons c ih).trans (List.Perm.swap _ _ _)
      · rw [if_neg hgt]
        have ih := selPass_perm c ys
        exact ((List.Perm.swap _ _ _).trans (List.Perm.cons y ih)).trans (List.Perm.swap _ _ _)

theorem selPass_max :
    ∀ (c : Ecosystem) (l : List Ecosystem),
      c.confidence ≤ (selPass c l).1.confidence ∧
      ∀ y ∈ (selPass c l).2, y.confidence ≤ (selPass c l).1.confidence
  | _, [] => ⟨le_refl _, fun y hy => absurd hy (List.not_mem_nil y)⟩
  | c, y :: ys => by
      rw [selPass]
      by_cases hgt : y.confidence > c.confidence
      · rw [if_pos hgt]
        have ih := selPass_max y ys
        refine ⟨le_trans (le_of_lt hgt) ih.1, fun z hz => ?_⟩
        rcases List.mem_cons.mp hz with rfl | hmem
        · exact le_trans (le_of_lt hgt) ih.1
        · exact ih.2 z hmem
      · rw [if_neg hgt]
        have ih := selPass_max c ys
        refine ⟨ih.1, fun z hz => ?_⟩
        rcases List.mem_cons.mp hz with rfl | hmem
        · exact le_trans (le_of_not_lt hgt) ih.1
        · exact ih.2 z hmem

theorem selSortAux_perm (n : Nat) :
    ∀ (l : List Ecosystem), l.length ≤ n → List.Perm (selSortAux n l) l := by
  induction n with
  | zero =>
      intro l h
      rw [List.length_eq_zero.mp (Nat.le_zero.mp h)]
      exact List.Perm.refl _
  | succ n ih =>
      intro l h
      cases l with
      | nil => exact List.Perm.refl _
      | cons x xs =>
          have hlen : (selPass x xs).2.length ≤ n := by
            rw [selPass_snd_length]
            exact Nat.le_of_succ_le_succ h
          exact (List.Perm.cons _ (ih _ hlen)).trans (selPass_perm x xs).symm

theorem selSortAux_sorted (n : Nat) :
    ∀ (l : List Ecosystem), l.length ≤ n →
      (selSortAux n l).Pairwise fun a b => b.confidence ≤ a.confidence := by
  induction n with
  | zero =>
      intro l _
      rw [selSortAux]
      exact List.Pairwise.nil
  | succ n ih =>
      intro l h
      cases l with
      | nil => exact List.Pairwise.nil
      | cons x xs =>
          have hlen : (selPass x xs).2.length ≤ n := by
            rw [selPass_snd_length]
            exact Nat.le_of_succ_le_succ h
          refine List.Pairwise.cons (fun b hb => ?_) (ih _ hlen)
          exact (selPass_max x xs).2 b ((selSortAux_perm n _ hlen).mem_iff.mp hb)

theorem selSort_perm (l : List Ecosystem) : List.Perm (selSortByConfidence l) l :=
  selSortAux_perm l.length l (le_refl _)

theorem selSort_sorted (l : List Ecosystem) :
    (selSortByConfidence l).Pairwise fun a b => b.confidence ≤ a.confidence :=
  selSortAux_sorted l.length l (le_refl _)

theorem sameIdent_symm : ∀ {u v : DependabotUpdate}, SameIdent u v → SameIdent v u := by
  rintro u v ⟨he, hd⟩
  exact ⟨he.symm, by rw [← he]; exact hd.imp id Eq.symm⟩

theorem sameIdent_of_key_eq {u v : DependabotUpdate} (h : updKey u = updKey v) :
    SameIdent u v :=
  ⟨congrArg Prod.fst h, Or.inr (congrArg Prod.snd h)⟩

theorem key_eq_of_sameIdent_slash {u v : DependabotUpdate} (h : SameIdent u v)
    (hu : isRootOnlyEcosystem u.packageEcosystem = true → u.directory = "/")
    (hv : isRootOnlyEcosystem v.packageEcosystem = true → v.directory = "/") :
    updKey u = updKey v := by
  rcases h with ⟨he, hro | hd⟩
  · rw [updKey, updKey, he, hu hro, hv (he ▸ hro)]
  · rw [updKey, updKey, he, hd]

theorem coverOne_iff {mu eu : DependabotUpdate} :
    coverOne mu eu = true ↔
      mu.packageEcosystem = eu.packageEcosystem ∧
      (isRootOnlyEcosystem eu.packageEcosystem = true ∨ mu.directory = eu.directory) := by
  unfold coverOne
  by_cases hro : isRootOnlyEcosystem eu.packageEcosystem = true
  · rw [if_pos hro]
    simp [hro]
  · rw [if_neg hro]
    simp [hro]

theorem sameIdent_of_coverOne {mu eu : DependabotUpdate} (h : coverOne mu eu = true) :
    SameIdent mu eu := by
  rcases coverOne_iff.mp h with ⟨he, hro | hd⟩
  · exact ⟨he, Or.inl (he ▸ hro)⟩
  · exact ⟨he, Or.inr hd⟩

theorem coverOne_of_key_eq {mu eu : DependabotUpdate} (h : updKey mu = updKey eu) :
    coverOne mu eu = true :=
  coverOne_iff.mpr ⟨congrArg Prod.fst h, Or.inr (congrArg Prod.snd h)⟩

theorem coveredBy_iff {l : List DependabotUpdate} {eu : DependabotUpdate} :
    coveredBy l eu = true ↔ ∃ mu ∈ l, coverOne mu eu = true := by
  unfold coveredBy
  exact List.any_eq_true

/-- `normalizeRootOnly` preserves the ecosystem, and fixes up only the
directory of root-only rules. -/
theorem normalizeRootOnly_eco (u : DependabotUpdate) :
    (normalizeRootOnly u).packageEcosystem = u.packageEcosystem := by
  unfold normalizeRootOnly
  split <;> rfl

theorem normalizeRootOnly_eq_self {u : DependabotUpdate}
    (h : isRootOnlyEcosystem u.packageEcosystem = true → u.directory = "/") :
    normalizeRootOnly u = u := by
  unfold normalizeRootOnly
  split
  · next hro =>
      rw [← h hro]
  · rfl

theorem normalizeRootOnly_rootDir {u : DependabotUpdate}
    (h : isRootOnlyEcosystem u.packageEcosystem = true) :
    (normalizeRootOnly u).directory = "/" := by
  unfold normalizeRootOnly
  rw [if_pos h]

/-- If an accumulator element does not cover `a`, it is not
identity-equal to `a`'s normalization either. -/
theorem coverOne_norm_of_not_sameIdent {a b : DependabotUpdate}
    (h : ¬ SameIdent a b) : coverOne (normalizeRootOnly a) b = false := by
  by_contra hcne
  have hc : coverOne (normalizeRootOnly a) b = true := by
    cases hcb : coverOne (normalizeRootOnly a) b
    · exact absurd hcb hcne
    · rfl
  have hc' := coverOne_iff.mp hc
  rw [normalizeRootOnly_eco] at hc'
  rcases hc' with ⟨he, hro | hd⟩
  · exact h ⟨he, Or.inl (he ▸ hro)⟩
  · by_cases hra : isRootOnlyEcosystem a.packageEcosystem = true
    · exact h ⟨he, Or.inl hra⟩
    · have hna : normalizeRootOnly a = a := by
        unfold normalizeRootOnly
        rw [if_neg hra]
      rw [hna] at hd
      exact h ⟨he, Or.inr hd⟩

/-- Within a list that is pairwise identity-distinct, identity-equal
members are the same element. -/
theorem mem_pairwise_unique {l : List DependabotUpdate}
    (hp : l.Pairwise fun a b => ¬ SameIdent a b) {x y : DependabotUpdate}
    (hx : x ∈ l) (hy : y ∈ l) (hs : SameIdent x y) : x = y := by
  induction l with
  | nil => cases hx
  | cons a rest ih =>
      rcases List.pairwise_cons.mp hp with ⟨hhead, htail⟩
      rcases List.mem_cons.mp hx with rfl | hx' <;> rcases List.mem_cons.mp hy with rfl | hy'
      · rfl
      · exact absurd hs (hhead y hy')
      · exact absurd (sameIdent_symm hs) (hhead x hx')
      · exact ih htail hx' hy'

theorem keys_nodup_of_ident_pairwise {l : List DependabotUpdate}
    (hp : l.Pairwise fun a b => ¬ SameIdent a b) : (l.map updKey).Nodup := by
  show (l.map updKey).Pairwise fun a b => a ≠ b
  rw [List.pairwise_map]
  exact hp.imp fun {a b} hnab hk => hnab (sameIdent_of_key_eq hk)

/-- `find?` returns the known member when every member satisfying the
predicate is that member. -/
theorem find?_eq_some_of_unique {α : Type} {p : α → Bool} :
    ∀ {l : List α} {a : α}, a ∈ l → p a = true →
      (∀ x ∈ l, p x = true → x = a) → l.find? p = some a
  | [], a, ha, _, _ => absurd ha (List.not_mem_nil a)
  | b :: rest, a, ha, hpa, huniq => by
      by_cases hpb : p b = true
      · rw [List.find?_cons_of_pos _ hpb, huniq b (List.mem_cons_self b rest) hpb]
      · have hab : a ∈ rest := by
          rcases List.mem_cons.mp ha with rfl | h
          · exact absurd hpa hpb
          · exact h
        rw [List.find?_cons_of_neg _ hpb]
        exact find?_eq_some_of_unique hab hpa fun x hx => huniq x (List.mem_cons_of_mem b hx)

/-- In a pairwise identity-distinct list every member with key
`(ecosystem, directory)` is the result of `findUpdate` for that key. -/
theorem findUpdate_eq_some {l : List DependabotUpdate} {r : DependabotUpdate}
    {et d : String} (hp : l.Pairwise fun a b => ¬ SameIdent a b) (hr : r ∈ l)
    (hk : updKey r = (et, d)) : findUpdate l et d = some r := by
  have heco : r.packageEcosystem = et := congrArg Prod.fst hk
  have hdir : r.directory = d := congrArg Prod.snd hk
  unfold findUpdate
  apply find?_eq_some_of_unique hr
  · simp [heco, hdir]
  · intro x hx hpx
    simp only [Bool.and_eq_true, beq_iff_eq, Bool.or_eq_true] at hpx
    apply mem_pairwise_unique hp hx hr
    refine ⟨hpx.1.trans heco.symm, ?_⟩
    rcases hpx.2 with hro | hxd
    · exact Or.inl (hpx.1.symm ▸ hro)
    · exact Or.inr (hxd.trans hdir.symm)

theorem pairwise_of_length_le_one {α : Type} {R : α → α → Prop} :
    ∀ {l : List α}, l.length ≤ 1 → l.Pairwise R
  | [], _ => List.Pairwise.nil
  | [a], _ => List.pairwise_singleton R a
  | _ :: _ :: _, h => by simp at h

theorem carryForward_mem_left {acc : List DependabotUpdate} {u : DependabotUpdate}
    (hu : u ∈ acc) : ∀ l : List DependabotUpdate, u ∈ carryForward acc l := by
  intro l
  induction l generalizing acc with
  | nil => exact hu
  | cons eu rest ih =>
      unfold carryForward
      rw [List.foldl_cons]
      by_cases hc : coveredBy acc eu = true
      · rw [if_pos hc]
        exact ih hu
      · rw [if_neg hc]
        exact ih (List.mem_append_left _ hu)

theorem carryForward_mem {u : DependabotUpdate} :
    ∀ {l acc : List DependabotUpdate}, u ∈ carryForward acc l →
      u ∈ acc ∨ ∃ eu ∈ l, u = normalizeRootOnly eu := by
  intro l
  induction l with
  | nil => exact fun h => Or.inl h
  | cons eu rest ih =>
      intro acc hu
      unfold carryForward at hu
      rw [List.foldl_cons] at hu
      by_cases hc : coveredBy acc eu = true
      · rw [if_pos hc] at hu
        rcases ih hu with h | ⟨e, he, heq⟩
        · exact Or.inl h
        · exact Or.inr ⟨e, List.mem_cons_of_mem _ he, heq⟩
      · rw [if_neg hc] at hu
        rcases ih hu with h | ⟨e, he, heq⟩
        · rcases List.mem_append.mp h with h' | h'
          · exact Or.inl h'
          · exact Or.inr ⟨eu, List.mem_cons_self _ _, (List.mem_singleton.mp h').symm ▸ rfl⟩
        · exact Or.inr ⟨e, List.mem_cons_of_mem _ he, heq⟩

/-- On a pairwise identity-distinct existing list, the carry-forward
loop appends exactly the normalizations of the existing rules not
covered by the initial accumulator: later appended rules never cover a
subsequent existing rule (their identities are distinct), so every
cover test against the grown accumulator equals the test against the
initial one. -/
theorem carryForward_eq_filter :
    ∀ {l acc : List DependabotUpdate}, (l.Pairwise fun a b => ¬ SameIdent a b) →
      carryForward acc l =
        acc ++ (l.filter fun r => !coveredBy acc r).map normalizeRootOnly := by
  intro l
  induction l with
  | nil => intro acc _; simp [carryForward]
  | cons eu rest ih =>
      intro acc hp
      rcases List.pairwise_cons.mp hp with ⟨hhead, htail⟩
      unfold carryForward
      rw [List.foldl_cons]
      by_cases hc : coveredBy acc eu = true
      · rw [if_pos hc]
        have := @ih acc htail
        unfold carryForward at this
        rw [this, List.filter_cons, if_neg (by rw [hc]; decide)]
      · rw [if_neg hc]
        have := @ih (acc ++ [normalizeRootOnly eu]) htail
        unfold carryForward at this
        rw [this, List.filter_cons, if_pos (by rw [Bool.eq_false_iff.mpr hc]; decide)]
        have hfilter : (rest.filter fun r => !coveredBy (acc ++ [normalizeRootOnly eu]) r) =
            rest.filter fun r => !coveredBy acc r := by
          apply List.filter_congr
          intro b hb
          have hnc : coverOne (normalizeRootOnly eu) b = false :=
            coverOne_norm_of_not_sameIdent (hhead b hb)
          unfold coveredBy
          rw [List.any_append]
          simp [hnc]
        rw [hfilter, List.map_cons]
        simp

/-- The carry-forward loop preserves pairwise identity-distinctness of
the accumulator: a rule is only appended when nothing in the current
accumulator covers it. -/
theorem carryForward_pairwise :
    ∀ {l acc : List DependabotUpdate},
      (acc.Pairwise fun a b => ¬ SameIdent a b) →
      (carryForward acc l).Pairwise fun a b => ¬ SameIdent a b := by
  intro l
  induction l with
  | nil => exact fun h => h
  | cons eu rest ih =>
      intro acc hacc
      unfold carryForward
      rw [List.foldl_cons]
      by_cases hc : coveredBy acc eu = true
      · rw [if_pos hc]
        exact ih hacc
      · rw [if_neg hc]
        apply ih
        rw [List.pairwise_append]
        refine ⟨hacc, List.pairwise_singleton _ _, fun a ha b hb => ?_⟩
        rw [List.mem_singleton.mp hb]
        intro hs
        rcases hs with ⟨he, hro | hd⟩
        · rw [normalizeRootOnly_eco] at he
          exact hc (coveredBy_iff.mpr ⟨a, ha, coverOne_iff.mpr ⟨he, Or.inl (he ▸ hro)⟩⟩)
        · rw [normalizeRootOnly_eco] at he
          by_cases hra : isRootOnlyEcosystem eu.packageEcosystem = true
          · exact hc (coveredBy_iff.mpr ⟨a, ha, coverOne_iff.mpr ⟨he, Or.inl hra⟩⟩)
          · have hne : normalizeRootOnly eu = eu := by
              unfold normalizeRootOnly
              rw [if_neg hra]
            rw [hne] at hd
            exact hc (coveredBy_iff.mpr ⟨a, ha, coverOne_iff.mpr ⟨he, Or.inr hd⟩⟩)

theorem detectedWF_tail {m : Merger} {eco : Ecosystem} {D : List Ecosystem}
    (h : DetectedWF m (eco :: D)) : DetectedWF m D :=
  ⟨(List.nodup_cons.mp h.1).2, fun e he => h.2 e (List.mem_cons_of_mem _ he)⟩

theorem prodUpd_spec {exu : List DependabotUpdate} {eco : Ecosystem} {d : String}
    {t : DependabotUpdate} (ht : t.packageEcosystem = eco.type')
    (hroot : isRootOnlyEcosystem eco.type' = true → d = "/") :
    (prodUpd exu eco d t).packageEcosystem = eco.type' ∧
    (prodUpd exu eco d t).directory = d ∧
    (prodUpd exu eco d t).schedule = t.schedule ∧
    (0 < t.openPullRequestsLimit →
      (prodUpd exu eco d t).openPullRequestsLimit = t.openPullRequestsLimit) := by
  unfold prodUpd
  cases hf : findUpdate exu eco.type' d with
  | none => exact ⟨ht, rfl, rfl, fun _ => rfl⟩
  | some eu =>
      dsimp only
      have hpred := List.find?_some hf
      simp only [Bool.and_eq_true, beq_iff_eq, Bool.or_eq_true] at hpred
      by_cases hro : isRootOnlyEcosystem eco.type' = true
      · rw [if_pos hro]
        refine ⟨hpred.1, (hroot hro).symm, rfl, fun hpos => ?_⟩
        show (mergeUpdate eu t).openPullRequestsLimit = _
        unfold mergeUpdate
        simp only [gt_iff_lt, if_pos hpos]
      · rw [if_neg hro]
        refine ⟨hpred.1, rfl, rfl, fun hpos => ?_⟩
        show (mergeUpdate eu t).openPullRequestsLimit = _
        unfold mergeUpdate
        simp only [gt_iff_lt, if_pos hpos]

theorem mergeDetectedOne_none {m : Merger} {ex : DependabotConfig} {eco : Ecosystem}
    (h : lookupTemplate m eco.name = none) : mergeDetectedOne m ex eco = [] := by
  unfold mergeDetectedOne
  rw [h]

theorem mergeDetectedOne_empty {m : Merger} {ex : DependabotConfig} {eco : Ecosystem}
    {tc : DependabotConfig} (h : lookupTemplate m eco.name = some tc)
    (he : tc.updates = []) : mergeDetectedOne m ex eco = [] := by
  unfold mergeDetectedOne
  rw [h]
  dsimp only
  induction eco.directories with
  | nil => rfl
  | cons d rest ih =>
      rw [List.flatMap_cons, ih]
      cases findUpdate ex.updates eco.type' d <;> simp [he]

theorem mergeDetectedOne_single {m : Merger} {ex : DependabotConfig} {eco : Ecosystem}
    {tc : DependabotConfig} {t : DependabotUpdate}
    (h : lookupTemplate m eco.name = some tc) (ht : tc.updates = [t]) :
    mergeDetectedOne m ex eco = eco.directories.map fun d => prodUpd ex.updates eco d t := by
  unfold mergeDetectedOne
  rw [h]
  dsimp only
  induction eco.directories with
  | nil => rfl
  | cons d rest ih =>
      rw [List.flatMap_cons, ih, List.map_cons]
      have hhd : (match findUpdate ex.updates eco.type' d with
          | some existingUpdate =>
            tc.updates.map fun tmplUpdate =>
              let mergedUpdate := mergeUpdate existingUpdate tmplUpdate
              if isRootOnlyEcosystem eco.type' then { mergedUpdate with directory := "/" }
              else { mergedUpdate with directory := d }
          | none =>
            tc.updates.map fun tmplUpdate => { tmplUpdate with directory := d }) =
          [prodUpd ex.updates eco d t] := by
        unfold prodUpd
        cases findUpdate ex.updates eco.type' d <;> simp [ht]
      rw [hhd]
      rfl

/-- Elements appended by the detected-ecosystem loop for one ecosystem:
either a merged rule (detected type, directory forced) or a fresh
template copy with overwritten directory. -/
theorem mergeDetectedOne_mem_cases {m : Merger} {ex : DependabotConfig} {eco : Ecosystem}
    {u : DependabotUpdate} (hu : u ∈ mergeDetectedOne m ex eco) :
    ∃ tc, lookupTemplate m eco.name = some tc ∧ ∃ d ∈ eco.directories, ∃ t ∈ tc.updates,
      ((u.packageEcosystem = eco.type' ∧
        u.directory = (if isRootOnlyEcosystem eco.type' then "/" else d)) ∨
       u = { t with directory := d }) := by
  unfold mergeDetectedOne at hu
  cases hlk : lookupTemplate m eco.name with
  | none => rw [hlk] at hu; cases hu
  | some tc =>
      rw [hlk] at hu
      dsimp only at hu
      rcases List.mem_flatMap.mp hu with ⟨d, hd, hu'⟩
      cases hf : findUpdate ex.updates eco.type' d with
      | some eu =>
          rw [hf] at hu'
          dsimp only at hu'
          rcases List.mem_map.mp hu' with ⟨t, htm, rfl⟩
          have hpred := List.find?_some hf
          simp only [Bool.and_eq_true, beq_iff_eq, Bool.or_eq_true] at hpred
          refine ⟨tc, rfl, d, hd, t, htm, Or.inl ⟨?_, ?_⟩⟩
          · by_cases hro : isRootOnlyEcosystem eco.type' = true
            · rw [if_pos hro]
              exact hpred.1
            · rw [if_neg hro]
              exact hpred.1
          · by_cases hro : isRootOnlyEcosystem eco.type' = true
            · rw [if_pos hro, if_pos hro]
            · rw [if_neg hro, if_neg hro]
      | none =>
          rw [hf] at hu'
          dsimp only at hu'
          rcases List.mem_map.mp hu' with ⟨t, htm, rfl⟩
          exact ⟨tc, rfl, d, hd, t, htm, Or.inr rfl⟩

theorem phase1_mem_cases {m : Merger} {ex : DependabotConfig} {D : List Ecosystem}
    {u : DependabotUpdate} (hu : u ∈ mergePhase1 m ex D) :
    ∃ eco ∈ D, ∃ tc, lookupTemplate m eco.name = some tc ∧
      ∃ d ∈ eco.directories, ∃ t ∈ tc.updates,
        ((u.packageEcosystem = eco.type' ∧
          u.directory = (if isRootOnlyEcosystem eco.type' then "/" else d)) ∨
         u = { t with directory := d }) := by
  rcases List.mem_flatMap.mp hu with ⟨eco, heco, hu'⟩
  exact ⟨eco, heco, mergeDetectedOne_mem_cases hu'⟩

theorem createList_mem_cases {m : Merger} {D : List Ecosystem} {u : DependabotUpdate}
    (hu : u ∈ createList m D) :
    ∃ eco ∈ D, ∃ d ∈ eco.directories,
      ((u.packageEcosystem = eco.type' ∧ u.directory = d) ∨
       ∃ tc, lookupTemplate m eco.name = some tc ∧ ∃ t ∈ tc.updates,
         u = { t with directory := d }) := by
  rcases List.mem_flatMap.mp hu with ⟨eco, heco, hu'⟩
  cases hlk : lookupTemplate m eco.name with
  | none =>
      rw [hlk] at hu'
      dsimp only at hu'
      rcases List.mem_map.mp hu' with ⟨d, hd, rfl⟩
      exact ⟨eco, heco, d, hd, Or.inl ⟨rfl, rfl⟩⟩
  | some tc =>
      rw [hlk] at hu'
      dsimp only at hu'
      rcases List.mem_flatMap.mp hu' with ⟨d, hd, hu''⟩
      rcases List.mem_map.mp hu'' with ⟨t, htm, rfl⟩
      exact ⟨eco, heco, d, hd, Or.inr ⟨tc, hlk, t, htm, rfl⟩⟩

theorem covKeys_cons (m : Merger) (eco : Ecosystem) (D : List Ecosystem) :
    covKeys m (eco :: D) =
      (match lookupTemplate m eco.name with
       | none => []
       | some tc =>
           if tc.updates = [] then [] else eco.directories.map fun d => (eco.type', d)) ++
      covKeys m D := by
  unfold covKeys
  rw [List.flatMap_cons]

theorem covKeys_fst {m : Merger} {D : List Ecosystem} {k : String × String}
    (hk : k ∈ covKeys m D) : k.1 ∈ D.map (·.type') := by
  unfold covKeys at hk
  rcases List.mem_flatMap.mp hk with ⟨eco, heco, hk'⟩
  cases hlk : lookupTemplate m eco.name with
  | none => rw [hlk] at hk'; cases hk'
  | some tc =>
      rw [hlk] at hk'
      dsimp only at hk'
      by_cases he : tc.updates = []
      · rw [if_pos he] at hk'; cases hk'
      · rw [if_neg he] at hk'
        rcases List.mem_map.mp hk' with ⟨d, hd, rfl⟩
        exact List.mem_map.mpr ⟨eco, heco, rfl⟩

theorem covKeys_nodup {m : Merger} {D : List Ecosystem} (hwf : DetectedWF m D) :
    (covKeys m D).Nodup := by
  induction D with
  | nil => exact List.nodup_nil
  | cons eco rest ih =>
      rw [covKeys_cons, List.nodup_append]
      have hhead : eco.type' ∉ rest.map (·.type') := (List.nodup_cons.mp hwf.1).1
      refine ⟨?_, ih (detectedWF_tail hwf), fun k hk1 hk2 => ?_⟩
      · cases hlk : lookupTemplate m eco.name with
        | none => exact List.nodup_nil
        | some tc =>
            dsimp only
            by_cases he : tc.updates = []
            · rw [if_pos he]; exact List.nodup_nil
            · rw [if_neg he]
              exact ((hwf.2 eco (List.mem_cons_self _ _)).1).map
                (fun d1 d2 h => congrArg Prod.snd h)
      · have hfst : k.1 = eco.type' := by
          cases hlk : lookupTemplate m eco.name with
          | none => rw [hlk] at hk1; cases hk1
          | some tc =>
              rw [hlk] at hk1
              dsimp only at hk1
              by_cases he : tc.updates = []
              · rw [if_pos he] at hk1; cases hk1
              · rw [if_neg he] at hk1
                rcases List.mem_map.mp hk1 with ⟨d, hd, rfl⟩
                rfl
        exact hhead (hfst ▸ covKeys_fst hk2)

theorem phase1_keys {m : Merger} {ex : DependabotConfig} {D : List Ecosystem}
    (hwf : DetectedWF m D) : (mergePhase1 m ex D).map updKey = covKeys m D := by
  induction D with
  | nil => rfl
  | cons eco rest ih =>
      have htail := ih (detectedWF_tail hwf)
      unfold mergePhase1 at htail ⊢
      rw [List.flatMap_cons, List.map_append, covKeys_cons, htail]
      congr 1
      cases hlk : lookupTemplate m eco.name with
      | none => rw [mergeDetectedOne_none hlk]; rfl
      | some tc =>
          dsimp only
          rcases (hwf.2 eco (List.mem_cons_self _ _)).2.2 tc hlk with he | ⟨t, ht, hte⟩
          · rw [mergeDetectedOne_empty hlk he, if_pos he]; rfl
          · rw [mergeDetectedOne_single hlk ht, if_neg (by rw [ht]; simp), List.map_map]
            apply List.map_congr_left
            intro d hd
            have hspec := @prodUpd_spec ex.updates eco d t hte
              (fun hro => (hwf.2 eco (List.mem_cons_self _ _)).2.1 hro d hd)
            show updKey (prodUpd ex.updates eco d t) = (eco.type', d)
            rw [updKey, hspec.1, hspec.2.1]

/-- Every rule appended for one well-formed detected ecosystem carries
that ecosystem's type. -/
theorem mergeDetectedOne_elem_eco {m : Merger} {ex : DependabotConfig} {eco : Ecosystem}
    (hwf : EcoWF m eco) {u : DependabotUpdate} (hu : u ∈ mergeDetectedOne m ex eco) :
    u.packageEcosystem = eco.type' := by
  rcases mergeDetectedOne_mem_cases hu with ⟨tc, hlk, d, hd, t, htm, hcase⟩
  rcases hcase with ⟨he, -⟩ | rfl
  · exact he
  · rcases hwf.2.2 tc hlk with he | ⟨t', ht', hte⟩
    · rw [he] at htm; cases htm
    · rw [ht'] at htm
      rw [List.mem_singleton.mp htm]
      exact hte

theorem phase1_elem_eco {m : Merger} {ex : DependabotConfig} {D : List Ecosystem}
    (hwf : DetectedWF m D) {u : DependabotUpdate} (hu : u ∈ mergePhase1 m ex D) :
    u.packageEcosystem ∈ D.map (·.type') := by
  rcases List.mem_flatMap.mp hu with ⟨eco, heco, hu'⟩
  exact List.mem_map.mpr ⟨eco, heco,
    (mergeDetectedOne_elem_eco (hwf.2 eco heco) hu').symm⟩

/-- A directory list that is duplicate-free and all-root has at most one
entry. -/
theorem dirs_length_le_one {dirs : List String} (hnd : dirs.Nodup)
    (hall : ∀ d ∈ dirs, d = "/") : dirs.length ≤ 1 := by
  cases dirs with
  | nil => exact Nat.zero_le 1
  | cons d1 rest =>
      cases rest with
      | nil => exact le_refl 1
      | cons d2 rest2 =>
          exfalso
          have h1 : d1 = "/" := hall d1 (List.mem_cons_self _ _)
          have h2 : d2 = "/" := hall d2 (List.mem_cons_of_mem _ (List.mem_cons_self _ _))
          have hnm : d1 ∉ d2 :: rest2 := (List.nodup_cons.mp hnd).1
          rw [h1.trans h2.symm] at hnm
          exact hnm (List.mem_cons_self d2 rest2)

theorem mergeDetectedOne_pairwise {m : Merger} {ex : DependabotConfig} {eco : Ecosystem}
    (hwf : EcoWF m eco) :
    (mergeDetectedOne m ex eco).Pairwise fun a b => ¬ SameIdent a b := by
  cases hlk : lookupTemplate m eco.name with
  | none => rw [mergeDetectedOne_none hlk]; exact List.Pairwise.nil
  | some tc =>
      rcases hwf.2.2 tc hlk with he | ⟨t, ht, hte⟩
      · rw [mergeDetectedOne_empty hlk he]; exact List.Pairwise.nil
      · rw [mergeDetectedOne_single hlk ht]
        by_cases hro : isRootOnlyEcosystem eco.type' = true
        · apply pairwise_of_length_le_one
          rw [List.length_map]
          exact dirs_length_le_one hwf.1 (hwf.2.1 hro)
        · rw [List.pairwise_map]
          refine hwf.1.imp fun {d1 d2} hne hs => ?_
          have h1 := @prodUpd_spec ex.updates eco d1 t hte (fun h => absurd h hro)
          have h2 := @prodUpd_spec ex.updates eco d2 t hte (fun h => absurd h hro)
          rcases hs with ⟨-, hcase⟩
          rcases hcase with hrt | hd
          · rw [h1.1] at hrt
            exact hro hrt
          · rw [h1.2.1, h2.2.1] at hd
            exact hne hd

theorem phase1_pairwise {m : Merger} {ex : DependabotConfig} {D : List Ecosystem}
    (hwf : DetectedWF m D) :
    (mergePhase1 m ex D).Pairwise fun a b => ¬ SameIdent a b := by
  induction D with
  | nil => exact List.Pairwise.nil
  | cons eco rest ih =>
      have hhead : eco.type' ∉ rest.map (·.type') := (List.nodup_cons.mp hwf.1).1
      unfold mergePhase1
      rw [List.flatMap_cons, List.pairwise_append]
      refine ⟨mergeDetectedOne_pairwise (hwf.2 eco (List.mem_cons_self _ _)),
        ih (detectedWF_tail hwf), fun x hx y hy hs => ?_⟩
      have hex : x.packageEcosystem = eco.type' :=
        mergeDetectedOne_elem_eco (hwf.2 eco (List.mem_cons_self _ _)) hx
      have hey : y.packageEcosystem ∈ rest.map (·.type') :=
        phase1_elem_eco (detectedWF_tail hwf) hy
      exact hhead (hex ▸ hs.1 ▸ hey)

/-- Every rule in the unsorted `createFromTemplates` list for a
well-formed detected ecosystem carries that ecosystem's type. -/
theorem createBlock_elem_eco {m : Merger} {eco : Ecosystem} (hwf : EcoWF m eco)
    {u : DependabotUpdate}
    (hu : u ∈ createList m [eco]) : u.packageEcosystem = eco.type' := by
  rcases createList_mem_cases hu with ⟨eco', heco', d, hd, hcase⟩
  rw [List.mem_singleton.mp heco'] at hcase hd
  rcases hcase with ⟨he, -⟩ | ⟨tc, hlk, t, htm, rfl⟩
  · exact he
  · rcases hwf.2.2 tc hlk with he | ⟨t', ht', hte⟩
    · rw [he] at htm; cases htm
    · rw [ht'] at htm
      rw [List.mem_singleton.mp htm]
      exact hte

theorem createList_cons (m : Merger) (eco : Ecosystem) (D : List Ecosystem) :
    createList m (eco :: D) = createList m [eco] ++ createList m D := by
  unfold createList
  simp [List.flatMap_cons]

theorem createBlock_none {m : Merger} {eco : Ecosystem}
    (hlk : lookupTemplate m eco.name = none) :
    createList m [eco] = eco.directories.map (fallbackUpd eco) := by
  simp [createList, hlk]

theorem createBlock_empty {m : Merger} {eco : Ecosystem} {tc : DependabotConfig}
    (hlk : lookupTemplate m eco.name = some tc) (he : tc.updates = []) :
    createList m [eco] = [] := by
  simp [createList, hlk, he]

theorem flatMap_singleton_eq_map {α β : Type} (f : α → β) (l : List α) :
    (l.flatMap fun x => [f x]) = l.map f := by
  induction l with
  | nil => rfl
  | cons a rest ih => rw [List.flatMap_cons, ih]; rfl

theorem createBlock_single {m : Merger} {eco : Ecosystem} {tc : DependabotConfig}
    {t : DependabotUpdate} (hlk : lookupTemplate m eco.name = some tc)
    (ht : tc.updates = [t]) :
    createList m [eco] = eco.directories.map fun d => { t with directory := d } := by
  simp [createList, hlk, ht, flatMap_singleton_eq_map]

theorem createList_elem_eco {m : Merger} {D : List Ecosystem} (hwf : DetectedWF m D)
    {u : DependabotUpdate} (hu : u ∈ createList m D) :
    u.packageEcosystem ∈ D.map (·.type') := by
  rcases createList_mem_cases hu with ⟨eco, heco, d, hd, hcase⟩
  refine List.mem_map.mpr ⟨eco, heco, ?_⟩
  rcases hcase with ⟨he, -⟩ | ⟨tc, hlk, t, htm, rfl⟩
  · exact he.symm
  · rcases (hwf.2 eco heco).2.2 tc hlk with he | ⟨t', ht', hte⟩
    · rw [he] at htm; cases htm
    · rw [ht'] at htm
      rw [List.mem_singleton.mp htm]
      exact hte.symm

theorem createList_pairwise {m : Merger} {D : List Ecosystem} (hwf : DetectedWF m D) :
    (createList m D).Pairwise fun a b => ¬ SameIdent a b := by
  induction D with
  | nil => exact List.Pairwise.nil
  | cons eco rest ih =>
      have hhead : eco.type' ∉ rest.map (·.type') := (List.nodup_cons.mp hwf.1).1
      have hwfe : EcoWF m eco := hwf.2 eco (List.mem_cons_self _ _)
      rw [createList_cons, List.pairwise_append]
      refine ⟨?_, ih (detectedWF_tail hwf), fun x hx y hy hs => ?_⟩
      · cases hlk : lookupTemplate m eco.name with
        | none =>
            rw [createBlock_none hlk]
            by_cases hro : isRootOnlyEcosystem eco.type' = true
            · apply pairwise_of_length_le_one
              rw [List.length_map]
              exact dirs_length_le_one hwfe.1 (hwfe.2.1 hro)
            · rw [List.pairwise_map]
              refine hwfe.1.imp fun {d1 d2} hne hs => ?_
              rcases hs with ⟨-, hrt | hd⟩
              · exact hro hrt
              · exact hne hd
        | some tc =>
            rcases hwfe.2.2 tc hlk with he | ⟨t, ht, hte⟩
            · rw [createBlock_empty hlk he]; exact List.Pairwise.nil
            · rw [createBlock_single hlk ht]
              by_cases hro : isRootOnlyEcosystem eco.type' = true
              · apply pairwise_of_length_le_one
                rw [List.length_map]
                exact dirs_length_le_one hwfe.1 (hwfe.2.1 hro)
              · rw [List.pairwise_map]
                refine hwfe.1.imp fun {d1 d2} hne hs => ?_
                rcases hs with ⟨-, hrt | hd⟩
                · exact hro (hte ▸ (hrt : isRootOnlyEcosystem t.packageEcosystem = true))
                · exact hne (hd : d1 = d2)
      · have hex : x.packageEcosystem = eco.type' := createBlock_elem_eco hwfe hx
        have hey : y.packageEcosystem ∈ rest.map (·.type') :=
          createList_elem_eco (detectedWF_tail hwf) hy
        exact hhead (hex ▸ hs.1 ▸ hey)

theorem detectedWF_rootDirsOk {m : Merger} {D : List Ecosystem}
    (hwf : DetectedWF m D) : RootDirsOk m D := by
  intro eco heco
  have h := hwf.2 eco heco
  refine ⟨h.2.1, fun tc hlk t htm hro d hd => ?_⟩
  rcases h.2.2 tc hlk with he | ⟨t', ht', hte⟩
  · rw [he] at htm; cases htm
  · rw [ht'] at htm
    rw [List.mem_singleton.mp htm] at hro
    rw [hte] at hro
    exact h.2.1 hro d hd

/-- Root-only rules in any `Merge` output sit at "/", provided root-only
material only enters at "/" (shared helper for two claims). -/
theorem merge_rootOnly_slash {m : Merger} {E : Option DependabotConfig}
    {D : List Ecosystem} (hok : RootDirsOk m D) :
    ∀ u ∈ (m.Merge E D).updates,
      isRootOnlyEcosystem u.packageEcosystem = true → u.directory = "/" := by
  intro u hu hro
  cases E with
  | none =>
      have hu' : u ∈ createList m D := (sortUpdates_perm _).mem_iff.mp hu
      rcases createList_mem_cases hu' with ⟨eco, heco, d, hd, hcase⟩
      rcases hcase with ⟨he, hdir⟩ | ⟨tc, hlk, t, htm, rfl⟩
      · rw [hdir]
        exact (hok eco heco).1 (he ▸ hro) d hd
      · exact ((hok eco heco).2 tc hlk t htm
          (hro : isRootOnlyEcosystem t.packageEcosystem = true) d hd : d = "/")
  | some ex =>
      have hu' : u ∈ carryForward (mergePhase1 m ex D) ex.updates :=
        (sortUpdates_perm _).mem_iff.mp hu
      rcases carryForward_mem hu' with hp | ⟨eu, -, rfl⟩
      · rcases phase1_mem_cases hp with ⟨eco, heco, tc, hlk, d, hd, t, htm, hcase⟩
        rcases hcase with ⟨he, hdir⟩ | rfl
        · rw [hdir, if_pos (he ▸ hro)]
        · exact ((hok eco heco).2 tc hlk t htm
            (hro : isRootOnlyEcosystem t.packageEcosystem = true) d hd : d = "/")
      · exact normalizeRootOnly_rootDir ((normalizeRootOnly_eco eu) ▸ hro)

theorem symm_not_sameIdent :
    Symmetric fun a b : DependabotUpdate => ¬ SameIdent a b :=
  fun _ _ h hs => h (sameIdent_symm hs)

/-- Rules in any `Merge` output over a well-formed detected list are
pairwise identity-distinct (shared helper for two claims). -/
theorem merge_ident_pairwise {m : Merger} {E : Option DependabotConfig}
    {D : List Ecosystem} (hwf : DetectedWF m D) :
    ((m.Merge E D).updates).Pairwise fun a b => ¬ SameIdent a b := by
  cases E with
  | none =>
      exact ((sortUpdates_perm (createList m D)).pairwise_iff
        (fun h hs => h (sameIdent_symm hs))).mpr (createList_pairwise hwf)
  | some ex =>
      exact ((sortUpdates_perm _).pairwise_iff
        (fun h hs => h (sameIdent_symm hs))).mpr
        (carryForward_pairwise (phase1_pairwise hwf))

/-- For every well-formed detected ecosystem with a single-rule
template, the `Merge` output contains a rule at each detected
(type, directory) key whose schedule is the template's and whose PR
limit is the template's whenever the latter is positive. -/
theorem merge_produced {m : Merger} {E : Option DependabotConfig} {D : List Ecosystem}
    (hwf : DetectedWF m D) {eco : Ecosystem} (heco : eco ∈ D) {tc : DependabotConfig}
    {t : DependabotUpdate} (hlk : lookupTemplate m eco.name = some tc)
    (ht : tc.updates = [t]) {d : String} (hd : d ∈ eco.directories) :
    ∃ r ∈ (m.Merge E D).updates, updKey r = (eco.type', d) ∧
      r.schedule = t.schedule ∧
      (0 < t.openPullRequestsLimit →
        r.openPullRequestsLimit = t.openPullRequestsLimit) := by
  have hte : t.packageEcosystem = eco.type' := by
    rcases (hwf.2 eco heco).2.2 tc hlk with he | ⟨t', ht', hte⟩
    · rw [he] at ht; cases ht
    · rw [ht'] at ht
      injection ht with h1 _
      rw [← h1]
      exact hte
  cases E with
  | none =>
      refine ⟨{ t with directory := d }, ?_, ?_, rfl, fun _ => rfl⟩
      · show _ ∈ sortUpdates (createList m D)
        rw [(sortUpdates_perm _).mem_iff]
        unfold createList
        refine List.mem_flatMap.mpr ⟨eco, heco, ?_⟩
        rw [hlk]
        dsimp only
        refine List.mem_flatMap.mpr ⟨d, hd, ?_⟩
        refine List.mem_map.mpr ⟨t, ?_, rfl⟩
        rw [ht]
        exact List.mem_singleton_self t
      · show (t.packageEcosystem, d) = (eco.type', d)
        rw [hte]
  | some ex =>
      have hroot : isRootOnlyEcosystem eco.type' = true → d = "/" :=
        fun hro => (hwf.2 eco heco).2.1 hro d hd
      have hspec := @prodUpd_spec ex.updates eco d t hte hroot
      refine ⟨prodUpd ex.updates eco d t, ?_, ?_, hspec.2.2.1, hspec.2.2.2⟩
      · show _ ∈ sortUpdates (carryForward (mergePhase1 m ex D) ex.updates)
        rw [(sortUpdates_perm _).mem_iff]
        apply carryForward_mem_left
        refine List.mem_flatMap.mpr ⟨eco, heco, ?_⟩
        rw [mergeDetectedOne_single hlk ht]
        exact List.mem_map_of_mem _ hd
      · show (_, _) = _
        rw [hspec.1, hspec.2.1]

/-- Covering by a list whose root-only rules sit at "/" is exactly key
membership, for a rule whose own root-only directory is "/". -/
theorem coveredBy_iff_key_mem {P2 : List DependabotUpdate} {r : DependabotUpdate}
    (hP : ∀ p ∈ P2, isRootOnlyEcosystem p.packageEcosystem = true → p.directory = "/")
    (hr : isRootOnlyEcosystem r.packageEcosystem = true → r.directory = "/") :
    (coveredBy P2 r = true) ↔ updKey r ∈ P2.map updKey := by
  rw [coveredBy_iff]
  constructor
  · rintro ⟨p, hp, hcov⟩
    exact List.mem_map.mpr ⟨p, hp,
      key_eq_of_sameIdent_slash (sameIdent_of_coverOne hcov) (hP p hp) hr⟩
  · intro hmem
    rcases List.mem_map.mp hmem with ⟨p, hp, hk⟩
    exact ⟨p, hp, coverOne_of_key_eq hk⟩

/-- Two update lists with duplicate-free, equal key multisets, whose
equal-key elements have equal `Equal`-relevant data, have permuted
`Equal`-relevant data. -/
theorem quads_perm_of_key_matched {l1 l2 : List DependabotUpdate}
    (h1 : (l1.map updKey).Nodup) (h2 : (l2.map updKey).Nodup)
    (hk : List.Perm (l1.map updKey) (l2.map updKey))
    (hq : ∀ x ∈ l1, ∀ y ∈ l2, updKey x = updKey y → quad x = quad y) :
    List.Perm (l1.map quad) (l2.map quad) := by
  have hq1 : (l1.map quad).Nodup :=
    List.Nodup.of_map (fun q : String × String × String × Int => (q.1, q.2.1))
      (by rw [List.map_map]; exact h1)
  have hq2 : (l2.map quad).Nodup :=
    List.Nodup.of_map (fun q : String × String × String × Int => (q.1, q.2.1))
      (by rw [List.map_map]; exact h2)
  rw [List.perm_ext_iff_of_nodup hq1 hq2]
  intro q
  constructor
  · intro hm
    rcases List.mem_map.mp hm with ⟨x, hx, rfl⟩
    have hkx : updKey x ∈ l2.map updKey := hk.mem_iff.mp (List.mem_map_of_mem _ hx)
    rcases List.mem_map.mp hkx with ⟨y, hy, hkxy⟩
    rw [hq x hx y hy hkxy.symm]
    exact List.mem_map_of_mem _ hy
  · intro hm
    rcases List.mem_map.mp hm with ⟨y, hy, rfl⟩
    have hky : updKey y ∈ l1.map updKey := hk.mem_iff.mpr (List.mem_map_of_mem _ hy)
    rcases List.mem_map.mp hky with ⟨x, hx, hkxy⟩
    rw [← hq x hx y hy hkxy]
    exact List.mem_map_of_mem _ hx

/-- A sorted update list with duplicate-free keys has strictly
key-sorted `Equal`-relevant data. -/
theorem quads_sorted_of_sorted_nodup {l : List DependabotUpdate}
    (hs : l.Pairwise updateLe) (hn : (l.map updKey).Nodup) :
    (l.map quad).Sorted quadKeyLt := by
  have hkne : l.Pairwise fun a b => updKey a ≠ updKey b := by
    rw [← List.pairwise_map]
    exact hn
  show (l.map quad).Pairwise quadKeyLt
  rw [List.pairwise_map]
  refine (hs.and hkne).imp fun {a b} hab => ?_
  rcases (updateLe_iff a b).mp hab.1 with hlt | ⟨heq, hle⟩
  · exact Or.inl hlt
  · refine Or.inr ⟨heq, lt_of_le_of_ne hle fun hd => hab.2 ?_⟩
    have hd' : a.directory = b.directory := hd
    show (a.packageEcosystem, a.directory) = (b.packageEcosystem, b.directory)
    rw [heq, hd']

/-- Sorted update lists with duplicate-free keys and permuted
`Equal`-relevant data have equal `Equal`-relevant data. -/
theorem map_quad_eq_of_sorted {l1 l2 : List DependabotUpdate}
    (hs1 : l1.Pairwise updateLe) (hs2 : l2.Pairwise updateLe)
    (hn1 : (l1.map updKey).Nodup) (hn2 : (l2.map updKey).Nodup)
    (hp : List.Perm (l1.map quad) (l2.map quad)) : l1.map quad = l2.map quad :=
  List.eq_of_perm_of_sorted hp (quads_sorted_of_sorted_nodup hs1 hn1)
    (quads_sorted_of_sorted_nodup hs2 hn2)

theorem zip_quad_eq :
    ∀ (l1 l2 : List DependabotUpdate), l1.map quad = l2.map quad →
      ∀ p ∈ l1.zip l2, quad p.1 = quad p.2
  | [], _, _, p, hp => by cases hp
  | _ :: _, [], _, p, hp => by cases hp
  | a :: as, b :: bs, h, p, hp => by
      rw [List.map_cons, List.map_cons] at h
      injection h with h1 h2
      rcases List.mem_cons.mp hp with rfl | hp'
      · exact h1
      · exact zip_quad_eq as bs h2 p hp'

theorem equal_of_quad_eq {u v : DependabotUpdate} (h : quad u = quad v) :
    DependabotUpdate.Equal u v = true := by
  have h1 : u.packageEcosystem = v.packageEcosystem :=
    congrArg (fun q : String × String × String × Int => q.1) h
  have h2 : u.directory = v.directory :=
    congrArg (fun q : String × String × String × Int => q.2.1) h
  have h3 : u.schedule.interval = v.schedule.interval :=
    congrArg (fun q : String × String × String × Int => q.2.2.1) h
  have h4 : u.openPullRequestsLimit = v.openPullRequestsLimit :=
    congrArg (fun q : String × String × String × Int => q.2.2.2) h
  simp [DependabotUpdate.Equal, h1, h2, h3, h4]

theorem equalCore_true_of_quads {c d : DependabotConfig} (hv : c.version = d.version)
    (hq : c.updates.map quad = d.updates.map quad) :
    DependabotConfig.EqualCore c d = true := by
  have hlen : c.updates.length = d.updates.length := by
    rw [← List.length_map c.updates quad, hq, List.length_map]
  unfold DependabotConfig.EqualCore
  simp only [Bool.and_eq_true, beq_iff_eq, List.all_eq_true]
  exact ⟨⟨hv, hlen⟩, fun p hp => equal_of_quad_eq (zip_quad_eq _ _ hq p hp)⟩

/-- Every rule produced by the detected-ecosystem loop (over a
well-formed detected list) is a `prodUpd` at a detected directory of an
ecosystem with a single-rule template. -/
theorem phase1_mem_spec {m : Merger} {ex : DependabotConfig} {D : List Ecosystem}
    (hwf : DetectedWF m D) {p : DependabotUpdate} (hp : p ∈ mergePhase1 m ex D) :
    ∃ eco ∈ D, ∃ tc t, lookupTemplate m eco.name = some tc ∧ tc.updates = [t] ∧
      t.packageEcosystem = eco.type' ∧ ∃ d ∈ eco.directories,
        p = prodUpd ex.updates eco d t := by
  rcases List.mem_flatMap.mp hp with ⟨eco, heco, hp'⟩
  cases hlk : lookupTemplate m eco.name with
  | none => rw [mergeDetectedOne_none hlk] at hp'; cases hp'
  | some tc =>
      rcases (hwf.2 eco heco).2.2 tc hlk with he | ⟨t, ht, hte⟩
      · rw [mergeDetectedOne_empty hlk he] at hp'; cases hp'
      · rw [mergeDetectedOne_single hlk ht] at hp'
        rcases List.mem_map.mp hp' with ⟨d, hd, rfl⟩
        exact ⟨eco, heco, tc, t, hlk, ht, hte, d, hd, rfl⟩

theorem phase1_rootOnly_slash {m : Merger} {ex : DependabotConfig} {D : List Ecosystem}
    (hwf : DetectedWF m D) :
    ∀ p ∈ mergePhase1 m ex D,
      isRootOnlyEcosystem p.packageEcosystem = true → p.directory = "/" := by
  intro p hp hro
  have hok := detectedWF_rootDirsOk hwf
  rcases phase1_mem_cases hp with ⟨eco, heco, tc, hlk, d, hd, t, htm, hcase⟩
  rcases hcase with ⟨he, hdir⟩ | rfl
  · rw [hdir, if_pos (he ▸ hro)]
  · exact ((hok eco heco).2 tc hlk t htm
      (hro : isRootOnlyEcosystem t.packageEcosystem = true) d hd : d = "/")

theorem covKeys_mem_spec {m : Merger} {D : List Ecosystem} (hwf : DetectedWF m D)
    {k : String × String} (hk : k ∈ covKeys m D) :
    ∃ eco ∈ D, ∃ tc t, lookupTemplate m eco.name = some tc ∧ tc.updates = [t] ∧
      t.packageEcosystem = eco.type' ∧ ∃ d ∈ eco.directories, k = (eco.type', d) := by
  unfold covKeys at hk
  rcases List.mem_flatMap.mp hk with ⟨eco, heco, hk'⟩
  cases hlk : lookupTemplate m eco.name with
  | none => rw [hlk] at hk'; cases hk'
  | some tc =>
      rw [hlk] at hk'
      dsimp only at hk'
      rcases (hwf.2 eco heco).2.2 tc hlk with he | ⟨t, ht, hte⟩
      · rw [if_pos he] at hk'; cases hk'
      · rw [if_neg (by rw [ht]; simp)] at hk'
        rcases List.mem_map.mp hk' with ⟨d, hd, rfl⟩
        exact ⟨eco, heco, tc, t, hlk, ht, hte, d, hd, rfl⟩

/-- Second-run produced rules have the same `Equal`-relevant data as the
unique first-run rule at their key: `findUpdate` returns that rule, the
schedule was already the template's, and the limit was already the
template's whenever the latter is positive. -/
theorem prodUpd_quad_eq {M1u : List DependabotUpdate}
    (hpair : M1u.Pairwise fun a b => ¬ SameIdent a b) {r : DependabotUpdate}
    {eco : Ecosystem} {d : String} {t : DependabotUpdate}
    (hr : r ∈ M1u) (hkr : updKey r = (eco.type', d))
    (hte : t.packageEcosystem = eco.type')
    (hroot : isRootOnlyEcosystem eco.type' = true → d = "/")
    (hsch : r.schedule = t.schedule)
    (hlim : 0 < t.openPullRequestsLimit →
      r.openPullRequestsLimit = t.openPullRequestsLimit) :
    quad (prodUpd M1u eco d t) = quad r := by
  have hfind := findUpdate_eq_some hpair hr hkr
  have hdir : r.directory = d := congrArg Prod.snd hkr
  have e3 : t.schedule.interval = r.schedule.interval := by rw [hsch]
  have e4 : (if t.openPullRequestsLimit > 0 then t.openPullRequestsLimit
      else r.openPullRequestsLimit) = r.openPullRequestsLimit := by
    by_cases hpos : 0 < t.openPullRequestsLimit
    · rw [if_pos hpos, hlim hpos]
    · rw [if_neg hpos]
  unfold prodUpd
  rw [hfind]
  dsimp only
  by_cases hro : isRootOnlyEcosystem eco.type' = true
  · rw [if_pos hro]
    show (r.packageEcosystem, "/", t.schedule.interval,
        if t.openPullRequestsLimit > 0 then t.openPullRequestsLimit
        else r.openPullRequestsLimit) =
      (r.packageEcosystem, r.directory, r.schedule.interval, r.openPullRequestsLimit)
    rw [e3, e4, hdir, hroot hro]
  · rw [if_neg hro]
    show (r.packageEcosystem, d, t.schedule.interval,
        if t.openPullRequestsLimit > 0 then t.openPullRequestsLimit
        else r.openPullRequestsLimit) =
      (r.packageEcosystem, r.directory, r.schedule.interval, r.openPullRequestsLimit)
    rw [e3, e4, hdir]

theorem merge_sorted_le {m : Merger} {E : Option DependabotConfig} {D : List Ecosystem} :
    (m.Merge E D).updates.Pairwise updateLe := by
  cases E <;> exact sortUpdates_sorted _

theorem merge_version {m : Merger} {E : Option DependabotConfig} {D : List Ecosystem} :
    (m.Merge E D).version = 2 := by
  cases E <;> rfl

/-- The idempotence core: re-merging any document that satisfies the
first-run invariants (version 2, sorted, identity-unique, root-only
rules at "/", and one rule at each detected key carrying the template's
schedule and — when positive — PR limit) yields an `Equal` document. -/
theorem merge_idem_core {m : Merger} {D : List Ecosystem} (hwf : DetectedWF m D)
    {M1 : DependabotConfig} (hver : M1.version = 2)
    (hsort : M1.updates.Pairwise updateLe)
    (hpair : M1.updates.Pairwise fun a b => ¬ SameIdent a b)
    (hslash : ∀ u ∈ M1.updates,
      isRootOnlyEcosystem u.packageEcosystem = true → u.directory = "/")
    (hprod : ∀ eco ∈ D, ∀ tc t, lookupTemplate m eco.name = some tc → tc.updates = [t] →
      ∀ d ∈ eco.directories, ∃ r ∈ M1.updates, updKey r = (eco.type', d) ∧
        r.schedule = t.schedule ∧
        (0 < t.openPullRequestsLimit →
          r.openPullRequestsLimit = t.openPullRequestsLimit)) :
    ConfigEqual (some (m.Merge (some M1) D)) (some M1) = true := by
  have hP2slash := @phase1_rootOnly_slash m M1 D hwf
  have hP2keys : (mergePhase1 m M1 D).map updKey = covKeys m D := phase1_keys hwf
  have hcovIff : ∀ r ∈ M1.updates,
      (coveredBy (mergePhase1 m M1 D) r = true ↔ updKey r ∈ covKeys m D) := by
    intro r hr
    rw [← hP2keys]
    exact coveredBy_iff_key_mem hP2slash (hslash r hr)
  have hcarry : carryForward (mergePhase1 m M1 D) M1.updates =
      mergePhase1 m M1 D ++
        M1.updates.filter fun r => !coveredBy (mergePhase1 m M1 D) r := by
    rw [carryForward_eq_filter hpair]
    congr 1
    have hid : ∀ u ∈ M1.updates.filter (fun r => !coveredBy (mergePhase1 m M1 D) r),
        normalizeRootOnly u = u :=
      fun u hu => normalizeRootOnly_eq_self (hslash u (List.mem_of_mem_filter hu))
    calc (M1.updates.filter fun r => !coveredBy (mergePhase1 m M1 D) r).map
          normalizeRootOnly
        = (M1.updates.filter fun r => !coveredBy (mergePhase1 m M1 D) r).map id :=
          List.map_congr_left hid
      _ = _ := List.map_id _
  have hknodup1 : (covKeys m D).Nodup := covKeys_nodup hwf
  have hM1keysnd : (M1.updates.map updKey).Nodup := keys_nodup_of_ident_pairwise hpair
  have hkfc : ((M1.updates.filter fun r =>
      coveredBy (mergePhase1 m M1 D) r).map updKey).Nodup :=
    List.Pairwise.sublist ((List.filter_sublist M1.updates).map updKey) hM1keysnd
  have hkeysperm : List.Perm
      ((M1.updates.filter fun r => coveredBy (mergePhase1 m M1 D) r).map updKey)
      (covKeys m D) := by
    rw [List.perm_ext_iff_of_nodup hkfc hknodup1]
    intro k
    constructor
    · intro hkm
      rcases List.mem_map.mp hkm with ⟨r, hrf, rfl⟩
      exact (hcovIff r (List.mem_of_mem_filter hrf)).mp (List.mem_filter.mp hrf).2
    · intro hkc
      rcases covKeys_mem_spec hwf hkc with ⟨eco, heco, tc, t, hlk, ht, hte, d, hd, rfl⟩
      rcases hprod eco heco tc t hlk ht d hd with ⟨r, hr, hkr, -, -⟩
      refine List.mem_map.mpr ⟨r, List.mem_filter.mpr ⟨hr, ?_⟩, hkr⟩
      exact (hcovIff r hr).mpr (by rw [hkr]; exact hkc)
  have hqmatch : ∀ x ∈ mergePhase1 m M1 D,
      ∀ y ∈ (M1.updates.filter fun r => coveredBy (mergePhase1 m M1 D) r),
        updKey x = updKey y → quad x = quad y := by
    intro x hx y hy hkxy
    rcases phase1_mem_spec hwf hx with ⟨eco, heco, tc, t, hlk, ht, hte, d, hd, rfl⟩
    rcases hprod eco heco tc t hlk ht d hd with ⟨r, hr, hkr, hsch, hlim⟩
    have hroot : isRootOnlyEcosystem eco.type' = true → d = "/" :=
      fun hro => (hwf.2 eco heco).2.1 hro d hd
    have hq := prodUpd_quad_eq hpair hr hkr hte hroot hsch hlim
    have hspec := @prodUpd_spec M1.updates eco d t hte hroot
    have hkx : updKey (prodUpd M1.updates eco d t) = (eco.type', d) := by
      show (_, _) = _
      rw [hspec.1, hspec.2.1]
    have hyeq : y = r :=
      mem_pairwise_unique hpair (List.mem_of_mem_filter hy) hr
        (sameIdent_of_key_eq (hkxy.symm.trans (hkx.trans hkr.symm)))
    rw [hq, hyeq]
  have hP2knd : ((mergePhase1 m M1 D).map updKey).Nodup := by
    rw [hP2keys]
    exact hknodup1
  have hquadsP : List.Perm ((mergePhase1 m M1 D).map quad)
      ((M1.updates.filter fun r => coveredBy (mergePhase1 m M1 D) r).map quad) :=
    quads_perm_of_key_matched hP2knd hkfc
      (by rw [hP2keys]; exact hkeysperm.symm) hqmatch
  have hperm : List.Perm ((m.Merge (some M1) D).updates.map quad)
      (M1.updates.map quad) := by
    have h1 : List.Perm ((m.Merge (some M1) D).updates)
        (carryForward (mergePhase1 m M1 D) M1.updates) := sortUpdates_perm _
    refine (h1.map quad).trans ?_
    rw [hcarry, List.map_append]
    refine (hquadsP.append_right _).trans ?_
    rw [← List.map_append]
    exact (List.filter_append_perm _ _).map quad
  have hfinal : (m.Merge (some M1) D).updates.map quad = M1.updates.map quad :=
    map_quad_eq_of_sorted (sortUpdates_sorted _) hsort
      (keys_nodup_of_ident_pairwise (merge_ident_pairwise hwf)) hM1keysnd hperm
  show DependabotConfig.EqualCore (m.Merge (some M1) D) M1 = true
  refine equalCore_true_of_quads ?_ hfinal
  rw [hver]
  rfl

/-- C6: field-level merge policy of `mergeUpdate`: directory, target
branch and vendor flag are kept from the existing rule, the schedule is
replaced by the template's unconditionally, and the open-PR limit is
replaced only when the template's value is positive; in particular, for
the existing rule {npm, "/", target develop, vendor} and the template
{npm, limit 10, weekly}, the merged rule keeps develop and vendor and
takes weekly and 10. -/
theorem C6_mergeUpdate_field_policy (existing template : DependabotUpdate) :
    (mergeUpdate existing template).directory = existing.directory ∧
    (mergeUpdate existing template).targetBranch = existing.targetBranch ∧
    (mergeUpdate existing template).vendor = existing.vendor ∧
    (mergeUpdate existing template).schedule = template.schedule ∧
    (mergeUpdate existing template).openPullRequestsLimit =
      (if template.openPullRequestsLimit > 0 then template.openPullRequestsLimit
       else existing.openPullRequestsLimit) ∧
    ((mergeUpdate
        { packageEcosystem := "npm", directory := "/", targetBranch := "develop",
          vendor := true }
        { packageEcosystem := "npm", openPullRequestsLimit := 10,
          schedule := { interval := "weekly" } }).targetBranch = "develop" ∧
     (mergeUpdate
        { packageEcosystem := "npm", directory := "/", targetBranch := "develop",
          vendor := true }
        { packageEcosystem := "npm", openPullRequestsLimit := 10,
          schedule := { interval := "weekly" } }).vendor = true ∧
     (mergeUpdate
        { packageEcosystem := "npm", directory := "/", targetBranch := "develop",
          vendor := true }
        { packageEcosystem := "npm", openPullRequestsLimit := 10,
          schedule := { interval := "weekly" } }).schedule.interval = "weekly" ∧
     (mergeUpdate
        { packageEcosystem := "npm", directory := "/", targetBranch := "develop",
          vendor := true }
        { packageEcosystem := "npm", openPullRequestsLimit := 10,
          schedule := { interval := "weekly" } }).openPullRequestsLimit = 10) :=
  ⟨rfl, rfl, rfl, rfl, rfl, by decide⟩

/-- C8: `mergeUpdate` computes labels, reviewers and assignees with
`mergeStringSlices`, which is the de-duplicated union keeping existing
items first and then the template items not already present, in
first-seen order (it is duplicate-free, contains exactly the members of
both inputs, and is a sublist of their concatenation); in particular
labels {dependencies, custom} merged with {automated, npm} give exactly
[dependencies, custom, automated, npm]. -/
theorem C8_label_reviewer_assignee_union (e t : DependabotUpdate) (a b : List String) :
    (mergeUpdate e t).labels = mergeStringSlices e.labels t.labels ∧
    (mergeUpdate e t).reviewers = mergeStringSlices e.reviewers t.reviewers ∧
    (mergeUpdate e t).assignees = mergeStringSlices e.assignees t.assignees ∧
    (mergeStringSlices a b).Nodup ∧
    (∀ x, x ∈ mergeStringSlices a b ↔ x ∈ a ∨ x ∈ b) ∧
    (mergeStringSlices a b).Sublist (a ++ b) ∧
    mergeStringSlices ["dependencies", "custom"] ["automated", "npm"] =
      ["dependencies", "custom", "automated", "npm"] := by
  have h := mergeStringSlices_foldl_spec (a ++ b) [] List.nodup_nil
  unfold mergeStringSlices
  refine ⟨rfl, rfl, rfl, h.1, fun x => ?_, ?_, by decide⟩
  · rw [h.2.1 x]
    simp
  · simpa only [List.nil_append] using h.2.2

/-- C10: the document equality predicate compares only the schema
version, the number of update rules, and, position-wise, each rule's
ecosystem, directory, schedule interval and open-PR limit; documents
agreeing on exactly these data (hence differing only in other fields)
are `Equal`. -/
theorem C10_equal_coarseness (c d : DependabotConfig) :
    ConfigEqual (some c) (some d) = true ↔
      (c.version = d.version ∧ c.updates.length = d.updates.length ∧
       ∀ p ∈ c.updates.zip d.updates,
         p.1.packageEcosystem = p.2.packageEcosystem ∧
         p.1.directory = p.2.directory ∧
         p.1.schedule.interval = p.2.schedule.interval ∧
         p.1.openPullRequestsLimit = p.2.openPullRequestsLimit) := by
  simp only [ConfigEqual, DependabotConfig.EqualCore, DependabotUpdate.Equal,
    Bool.and_eq_true, List.all_eq_true, beq_iff_eq, and_assoc]

/-- C9: the detected confidence of an ecosystem is the maximum weight
over all indicator matches of that ecosystem against the file tree (not
a sum): it is one of the matched weights and bounds them all; and a tree
containing package-lock.json (weight 1.0, stored 10) and package.json
(weight 0.8, stored 8) yields exactly one npm detected ecosystem with
confidence 1.0 (stored 10), not 1.8 or 0.8. -/
theorem C9_confidence_max (eco : String) (inds : List Indicator) (files : List String)
    (st : EcoState) (h : ecoScan eco inds files = some st) :
    (st.confidence ∈ matchedWeights inds files ∧
      ∀ w ∈ matchedWeights inds files, w ≤ st.confidence) ∧
    presentKeys ["package-lock.json", "package.json"] = ["npm"] ∧
    Detect ["package-lock.json", "package.json"] ["npm"] =
      [{ name := "npm", type' := "npm", directories := ["/"], confidence := 10 }] := by
  have hconf := ecoScan_confidence eco inds files none
  unfold ecoScan at h
  rw [h] at hconf
  exact ⟨maxAcc_none_spec _ _ hconf.symm, by decide, by decide⟩

theorem C9_confidence_max_witness :
    ecoScan "npm"
        [⟨"package-lock.json", 10⟩, ⟨"yarn.lock", 10⟩, ⟨"pnpm-lock.yaml", 10⟩,
         ⟨"package.json", 8⟩]
        ["package-lock.json", "package.json"] =
      some { confidence := 10, directories := ["/"] } ∧
    ((10 ∈ matchedWeights
        [⟨"package-lock.json", 10⟩, ⟨"yarn.lock", 10⟩, ⟨"pnpm-lock.yaml", 10⟩,
         ⟨"package.json", 8⟩]
        ["package-lock.json", "package.json"] ∧
      ∀ w ∈ matchedWeights
        [⟨"package-lock.json", 10⟩, ⟨"yarn.lock", 10⟩, ⟨"pnpm-lock.yaml", 10⟩,
         ⟨"package.json", 8⟩]
        ["package-lock.json", "package.json"], w ≤ 10) ∧
     presentKeys ["package-lock.json", "package.json"] = ["npm"] ∧
     Detect ["package-lock.json", "package.json"] ["npm"] =
       [{ name := "npm", type' := "npm", directories := ["/"], confidence := 10 }]) :=
  ⟨by decide,
   C9_confidence_max "npm"
     [⟨"package-lock.json", 10⟩, ⟨"yarn.lock", 10⟩, ⟨"pnpm-lock.yaml", 10⟩,
      ⟨"package.json", 8⟩]
     ["package-lock.json", "package.json"]
     { confidence := 10, directories := ["/"] } (by decide)⟩

/-- C4 is refuted as stated: `Detect` builds its result slice by
iterating a Go map, whose iteration order is randomized between runs,
and the final sort breaks confidence ties by that order; two valid
iteration orders of the same run (`["gomod", "cargo"]` is the map's key
set for this tree) give different output sequences for the same file
tree, so repeated invocations are not bit-identical. -/
theorem C4_counterexample_detect_tie_order :
    List.Perm ["gomod", "cargo"] ["cargo", "gomod"] ∧
    presentKeys ["go.sum", "Cargo.lock"] = ["gomod", "cargo"] ∧
    Detect ["go.sum", "Cargo.lock"] ["gomod", "cargo"] ≠
      Detect ["go.sum", "Cargo.lock"] ["cargo", "gomod"] :=
  ⟨List.Perm.swap _ _ _, by decide, by decide⟩

/-- C4 amended: `Merge` and the per-ecosystem content of `Detect` are
deterministic (both are pure functions of their inputs in this model),
and `Detect` is deterministic up to the order of equal-confidence
ecosystems: for any two iteration orders of the ecosystems map, the
outputs are permutations of each other (same ecosystems with the same
name, type, directories and confidence), and every output is sorted by
descending confidence; only the relative order of tied confidences
follows the randomized map iteration order. -/
theorem C4_amended_detect_deterministic_up_to_ties (files : List String)
    (o1 o2 : List String) (h : List.Perm o1 o2) :
    List.Perm (Detect files o1) (Detect files o2) ∧
    (Detect files o1).Pairwise (fun a b => b.confidence ≤ a.confidence) := by
  unfold Detect
  constructor
  · exact (selSort_perm _).trans ((h.filterMap _).trans (selSort_perm _).symm)
  · exact selSort_sorted _

theorem C4_amended_witness :
    List.Perm ["gomod", "cargo"] ["cargo", "gomod"] ∧
    (List.Perm (Detect ["go.sum", "Cargo.lock"] ["gomod", "cargo"])
        (Detect ["go.sum", "Cargo.lock"] ["cargo", "gomod"]) ∧
     (Detect ["go.sum", "Cargo.lock"] ["gomod", "cargo"]).Pairwise
        (fun a b => b.confidence ≤ a.confidence)) :=
  ⟨List.Perm.swap _ _ _,
   C4_amended_detect_deterministic_up_to_ties _ _ _ (List.Perm.swap _ _ _)⟩

/-- C5: the update list of every `Merge` output — with or without an
existing configuration — is sorted ascending lexicographically by
(ecosystem identifier, directory). -/
theorem C5_merge_output_sorted (m : Merger) (existing : Option DependabotConfig)
    (ecosystems : List Ecosystem) :
    (m.Merge existing ecosystems).updates.Pairwise (fun u v =>
      u.packageEcosystem < v.packageEcosystem ∨
      (u.packageEcosystem = v.packageEcosystem ∧ u.directory ≤ v.directory)) := by
  have key : ∀ l : List DependabotUpdate,
      (sortUpdates l).Pairwise (fun u v =>
        u.packageEcosystem < v.packageEcosystem ∨
        (u.packageEcosystem = v.packageEcosystem ∧ u.directory ≤ v.directory)) :=
    fun l => (sortUpdates_sorted l).imp fun h => (updateLe_iff _ _).mp h
  cases existing with
  | none => exact key _
  | some e => exact key _

/-- C2 is refuted as stated: with an empty template mapping, no existing
document, and a detected docker (root-only) ecosystem recorded at
directory "/app", `Merge` synthesizes a fallback docker rule at "/app",
so not every root-only rule in a `Merge` output has directory "/" for
arbitrary detected directory sets — the normalization happens in the
detector, in the merge-with-existing branch, and in carry-forward, but
not when instantiating fresh rules. -/
theorem C2_counterexample_root_only_dir :
    ¬ (∀ u ∈ (Merger.Merge { templates := [] } none exBadDocker).updates,
        isRootOnlyEcosystem u.packageEcosystem = true → u.directory = "/") := by
  decide

/-- C2 amended: in every document returned by `Merge` — for any existing
document, present or absent — every rule for a root-only ecosystem has
directory exactly "/", provided root-only material only enters at "/":
every detected ecosystem of root-only type has directory set {"/"} (as
the detector guarantees), and template updates tagged root-only are only
instantiated at "/" directories. -/
theorem C2_amended_root_only_normalization (m : Merger) (E : Option DependabotConfig)
    (D : List Ecosystem) (hok : RootDirsOk m D) :
    ∀ u ∈ (m.Merge E D).updates,
      isRootOnlyEcosystem u.packageEcosystem = true → u.directory = "/" :=
  merge_rootOnly_slash hok

theorem C2_amended_witness :
    RootDirsOk exMerger exDetected ∧
    ∀ u ∈ (exMerger.Merge (some exExisting) exDetected).updates,
      isRootOnlyEcosystem u.packageEcosystem = true → u.directory = "/" := by
  have hok : RootDirsOk exMerger exDetected := by
    intro eco heco
    rw [List.mem_singleton.mp heco]
    exact ⟨fun _ d hd => List.mem_singleton.mp hd,
           fun _ _ _ _ _ d hd => List.mem_singleton.mp hd⟩
  exact ⟨hok, C2_amended_root_only_normalization exMerger (some exExisting) exDetected hok⟩

/-- C3 is refuted as stated: a detected-ecosystem set containing npm
twice (or a template document with two rules for the same ecosystem)
makes `Merge` emit two rules with the same (ecosystem, directory) pair,
("npm", "/") twice here, so uniqueness does not hold for arbitrary
detected sets and template mappings. -/
theorem C3_counterexample_duplicate_rules :
    (Merger.Merge { templates := [] } none exDupDetected).updates.map updKey =
      [("npm", "/"), ("npm", "/")] ∧
    ¬ ((Merger.Merge { templates := [] } none exDupDetected).updates.Pairwise
        fun u v => ¬ SameIdent u v) := by
  constructor
  · decide
  · decide

/-- C3 amended: in every document returned by `Merge`, no two rules
share an identity — the (ecosystem, directory) pair, or the ecosystem
alone for root-only ecosystems — provided the detected set is
well-formed (pairwise-distinct ecosystem types, duplicate-free
directory sets, root-only ecosystems detected only at "/") and each
detected ecosystem's template, when loaded, carries at most one update
rule tagged with the detected type. -/
theorem C3_amended_unique_identities (m : Merger) (E : Option DependabotConfig)
    (D : List Ecosystem) (hwf : DetectedWF m D) :
    ((m.Merge E D).updates).Pairwise fun u v => ¬ SameIdent u v :=
  merge_ident_pairwise hwf

/-- The example detected set and template mapping are well-formed:
distinct types, duplicate-free root-normalized directories, single-rule
template tagged with its ecosystem. -/
theorem exDetectedWF : DetectedWF exMerger exDetected := by
  refine ⟨by decide, ?_⟩
  intro eco heco
  rw [List.mem_singleton.mp heco]
  refine ⟨by decide, fun _ d hd => List.mem_singleton.mp hd, ?_⟩
  intro tc hlk
  have heq : some exTemplateDocker = some tc := hlk
  injection heq with heq
  rw [← heq]
  exact Or.inr ⟨_, rfl, rfl⟩

theorem C3_amended_witness :
    DetectedWF exMerger exDetected ∧
    ((exMerger.Merge (some exExisting) exDetected).updates).Pairwise
      fun u v => ¬ SameIdent u v :=
  ⟨exDetectedWF,
   C3_amended_unique_identities exMerger (some exExisting) exDetected exDetectedWF⟩

/-- C7: every existing rule — in an existing document satisfying the
data model's identity-uniqueness invariant — whose identity was not
produced by the detected-ecosystem loop is included in the `Merge`
output unmodified in every field, except that a root-only rule's
directory is normalized to "/" (`normalizeRootOnly` changes nothing
else, and nothing at all on non-root-only rules); in particular a rule
for an ecosystem absent from both the detected set and the template
mapping is preserved. -/
theorem C7_carry_forward (m : Merger) (ex : DependabotConfig) (D : List Ecosystem)
    (r : DependabotUpdate) (hr : r ∈ ex.updates)
    (hinv : ex.updates.Pairwise fun a b => ¬ SameIdent a b)
    (hncov : coveredBy (mergePhase1 m ex D) r = false) :
    normalizeRootOnly r ∈ (m.Merge (some ex) D).updates ∧
    (isRootOnlyEcosystem r.packageEcosystem = false → normalizeRootOnly r = r) := by
  constructor
  · show _ ∈ sortUpdates (carryForward (mergePhase1 m ex D) ex.updates)
    rw [(sortUpdates_perm _).mem_iff, carryForward_eq_filter hinv]
    apply List.mem_append_right
    apply List.mem_map_of_mem
    rw [List.mem_filter]
    exact ⟨hr, by rw [hncov]; rfl⟩
  · intro hnro
    unfold normalizeRootOnly
    rw [if_neg (by rw [hnro]; exact Bool.false_ne_true)]

theorem C7_carry_forward_witness :
    exNpmRule ∈ exExisting.updates ∧
    (exExisting.updates.Pairwise fun a b => ¬ SameIdent a b) ∧
    coveredBy (mergePhase1 exMerger exExisting exDetected) exNpmRule = false ∧
    (normalizeRootOnly exNpmRule ∈
        (exMerger.Merge (some exExisting) exDetected).updates ∧
      (isRootOnlyEcosystem exNpmRule.packageEcosystem = false →
        normalizeRootOnly exNpmRule = exNpmRule)) :=
  ⟨by decide, by decide, by decide,
   C7_carry_forward exMerger exExisting exDetected exNpmRule
     (by decide) (by decide) (by decide)⟩

/-- C1 is refuted as stated: with an empty template mapping and a
detected docker (root-only) ecosystem recorded at "/app", the first
`Merge` synthesizes a fallback docker rule at "/app"; re-merging that
output skips the template-less ecosystem and carries the rule forward
with its directory normalized to "/", so the second output is not
`Equal` to the first. -/
theorem C1_counterexample_idempotence :
    ConfigEqual
      (some (Merger.Merge { templates := [] }
        (some (Merger.Merge { templates := [] } none exBadDocker)) exBadDocker))
      (some (Merger.Merge { templates := [] } none exBadDocker)) = false := by
  decide

/-- C1 amended: for every existing document `E` (including absent),
`Merge(Merge(E, D, T), D, T)` is `Equal` to `Merge(E, D, T)`, provided
the detected set and template mapping are well-formed: pairwise-distinct
ecosystem types, duplicate-free directory sets, root-only ecosystems
detected only at "/" (all guaranteed by the detector), and each loaded
template for a detected ecosystem carrying at most one update rule,
tagged with the detected type. -/
theorem C1_amended_idempotence (m : Merger) (E : Option DependabotConfig)
    (D : List Ecosystem) (hwf : DetectedWF m D) :
    ConfigEqual (some (m.Merge (some (m.Merge E D)) D)) (some (m.Merge E D)) = true :=
  merge_idem_core hwf merge_version merge_sorted_le (merge_ident_pairwise hwf)
    (merge_rootOnly_slash (detectedWF_rootDirsOk hwf))
    (fun eco heco tc t hlk ht d hd => merge_produced hwf heco hlk ht hd)

theorem C1_amended_witness :
    DetectedWF exMerger exDetected ∧
    ConfigEqual
      (some (exMerger.Merge (some (exMerger.Merge (some exExisting) exDetected))
        exDetected))
      (some (exMerger.Merge (some exExisting) exDetected)) = true :=
  ⟨exDetectedWF,
   C1_amended_idempotence exMerger (some exExisting) exDetected exDetectedWF⟩

end DCM
